import Mathlib

/-!
Verification of the tic-tac-toe engine (`tictactoe.py`): board model,
memoized minimax search, and the difficulty-modulated move selector.

The board is a list of 9 cells, each one of the mark characters
`EMPTY`, `AI` (`'X'`), `HUMAN` (`'O'`).  The Python code mutates the
board in place with a place/test/revert discipline and threads a memo
dictionary through the search; here the state is passed explicitly:
the "mutating" functions return the final board together with their
result, and the memo table is threaded as a value.
-/

namespace TicTacToe

/-- The human mark, `HUMAN = "O"`. -/
def HUMAN : Char := 'O'

/-- The computer mark, `AI = "X"`. -/
def AI : Char := 'X'

/-- The empty-cell mark, `EMPTY = " "`. -/
def EMPTY : Char := ' '

/-- A board is the list of its 9 cells (a cell holds a mark character). -/
abbrev Board := List Char

/-- The 8 win lines: 3 rows, 3 columns, 2 diagonals, in source order. -/
def WIN_LINES : List (Nat × Nat × Nat) :=
  [(0, 1, 2), (3, 4, 5), (6, 7, 8),
   (0, 3, 6), (1, 4, 7), (2, 5, 8),
   (0, 4, 8), (2, 4, 6)]

/-- Source `winner(b)`: scan the win lines in order; return the mark of the first
line whose three cells are equal and non-empty, else `none`. -/
def winner (b : Board) : Option Char :=
  WIN_LINES.findSome? fun l =>
    if b.getD l.1 EMPTY ≠ EMPTY ∧ b.getD l.1 EMPTY = b.getD l.2.1 EMPTY ∧
        b.getD l.2.1 EMPTY = b.getD l.2.2 EMPTY then
      some (b.getD l.1 EMPTY)
    else
      none

/-- Source `is_draw(b)`: no winner and no empty cell. -/
def is_draw (b : Board) : Bool :=
  (winner b).isNone && b.all fun x => decide (x ≠ EMPTY)

/-- Source `available_moves(b)`: the indices of the empty cells, in ascending order. -/
def available_moves (b : Board) : List Nat :=
  (List.range b.length).filter fun i => decide (b.getD i EMPTY = EMPTY)

/-- Source `winning_moves(b, player)`: moves that make `player` win immediately.
Each candidate cell is filled, tested, and reverted; the post-call board is
returned alongside the list of winning moves (state-passing rendering of the
in-place mutation). -/
def winning_movesM (b : Board) (player : Char) : List Nat × Board :=
  (available_moves b).foldl
    (fun acc m =>
      let b1 := acc.2.set m player
      let wins := if winner b1 = some player then acc.1 ++ [m] else acc.1
      (wins, b1.set m EMPTY))
    ([], b)

/-- The list of immediately winning moves for `player` (the value computed by
`winning_moves`). -/
def winning_moves (b : Board) (player : Char) : List Nat :=
  (winning_movesM b player).1

/-- Source `board_key(b, turn)`: the memo key, full board configuration followed by
the turn indicator (`"".join(b) + turn`). -/
def board_key (b : Board) (turn : Char) : List Char :=
  b ++ [turn]

/-- Injective numeric code of a memo key, used to index the memo table
(the Python dict keyed by strings is modelled as a search tree keyed by
this code of the key). -/
def encodeKey : List Char → Nat
  | [] => 1
  | c :: cs => encodeKey cs * 256 + c.toNat

/-- The memo table: a binary search tree from key codes to scores,
modelling the Python `Dict[str, int]`. -/
inductive Memo where
  | leaf : Memo
  | node : Memo → Nat → Int → Memo → Memo

/-- Dictionary lookup. -/
def Memo.find? : Memo → Nat → Option Int
  | .leaf, _ => none
  | .node l k v r, k' =>
    if k' < k then l.find? k'
    else if k < k' then r.find? k'
    else some v

/-- Dictionary insertion. -/
def Memo.insert : Memo → Nat → Int → Memo
  | .leaf, k', v' => .node .leaf k' v' .leaf
  | .node l k v r, k', v' =>
    if k' < k then .node (l.insert k' v') k v r
    else if k < k' then .node l k v (r.insert k' v')
    else .node l k' v' r

/-- Python's `max` on two scores. -/
def imax (a b : Int) : Int := if a < b then b else a

/-- Python's `min` on two scores. -/
def imin (a b : Int) : Int := if b < a then b else a

/-- Number of empty cells (the recursion measure of the search). -/
def countEmpty (b : Board) : Nat := b.count EMPTY

/-- Source `minimax(b, turn, memo)`, with the in-place board mutation and the memo
dict rendered as explicit state: returns `(score, post-call board, post-call
memo)`.  `fuel` bounds the recursion depth; every ply fills one empty cell, so
any `fuel > countEmpty b` makes the `0` branch unreachable. -/
def minimaxM : Nat → Board → Char → Memo → Int × Board × Memo
  | 0, b, _, memo => (0, b, memo)
  | fuel + 1, b, turn, memo =>
    if winner b = some AI then (1, b, memo)
    else if winner b = some HUMAN then (-1, b, memo)
    else if is_draw b = true then (0, b, memo)
    else
      let key := encodeKey (board_key b turn)
      match memo.find? key with
      | some v => (v, b, memo)
      | none =>
        if turn = AI then
          let r := (available_moves b).foldl
            (fun acc m =>
              let s := minimaxM fuel (acc.2.1.set m AI) HUMAN acc.2.2
              (imax acc.1 s.1, s.2.1.set m EMPTY, s.2.2))
            (-10, b, memo)
          (r.1, r.2.1, r.2.2.insert key r.1)
        else
          let r := (available_moves b).foldl
            (fun acc m =>
              let s := minimaxM fuel (acc.2.1.set m HUMAN) AI acc.2.2
              (imin acc.1 s.1, s.2.1.set m EMPTY, s.2.2))
            (10, b, memo)
          (r.1, r.2.1, r.2.2.insert key r.1)

/-- Source `minimax(b, turn, memo)` with sufficient fuel (`length + 1 > countEmpty`). -/
def minimax (b : Board) (turn : Char) (memo : Memo) : Int × Board × Memo :=
  minimaxM (b.length + 1) b turn memo

/-- The inner loop of `best_ai_move`: iterate over the moves, early-return on
an immediate win (reverting first), otherwise compute the narration call
`winning_moves(b, HUMAN)` on the trial board, score the trial board with the
shared memo, revert, and keep the strictly best score seen.  Returns the
chosen move and the post-call board. -/
def best_ai_moveGo : List Nat → Int → Int → Board → Memo → Int × Board
  | [], _, best_move, b, _ => (best_move, b)
  | m :: rest, best_score, best_move, b, memo =>
    let b1 := b.set m AI
    if winner b1 = some AI then (Int.ofNat m, b1.set m EMPTY)
    else
      let hw := winning_movesM b1 HUMAN
      let r := minimax hw.2 HUMAN memo
      let b2 := r.2.1.set m EMPTY
      if best_score < r.1 then best_ai_moveGo rest r.1 (Int.ofNat m) b2 r.2.2
      else best_ai_moveGo rest best_score best_move b2 r.2.2

/-- Source `best_ai_move(b)`: fresh memo, threat narration (`winning_moves(b, HUMAN)`),
then the move loop starting from `best_score = -10`, `best_move = -1`.
Returns the chosen move and the post-call board. -/
def best_ai_moveM (b : Board) : Int × Board :=
  let ht := winning_movesM b HUMAN
  best_ai_moveGo (available_moves ht.2) (-10) (-1) ht.2 Memo.leaf

/-- The move returned by `best_ai_move(b)`. -/
def best_ai_move (b : Board) : Int :=
  (best_ai_moveM b).1

/-- Python `random.choice(l)` given the outcome `pick` of the random source; `none`
models the `IndexError` on an empty list. -/
def random_choice (l : List Int) (pick : Nat) : Option Int :=
  l.get? (pick % l.length)

/-- Source `choose_ai_move(b, difficulty)`, with the random source explicit: `u` is
the uniform draw of `random.random()` and `pick` the outcome used by
`random.choice`.  Always computes the perfect move first, then decides
whether to play it or to make a deliberate mistake. -/
def choose_ai_move (b : Board) (difficulty : String) (u : ℚ) (pick : Nat) :
    Option Int :=
  let best := best_ai_move b
  if difficulty = "hard" then some best
  else
    let moves := available_moves b
    if moves.length = 1 then some best
    else
      let p_best : ℚ := if difficulty = "medium" then 7/10 else 35/100
      if u < p_best then some best
      else
        let other_moves := (moves.map Int.ofNat).filter fun m => decide (m ≠ best)
        random_choice other_moves pick

/-- The empty starting board `[EMPTY] * 9`. -/
def emptyBoard : Board := List.replicate 9 EMPTY

/-- The immediate-win test board `[X,X,_,O,O,_,_,_,_]`. -/
def demoBoard : Board :=
  [AI, AI, EMPTY, HUMAN, HUMAN, EMPTY, EMPTY, EMPTY, EMPTY]

/-- A board whose cells are all marks (`EMPTY`, `AI` or `HUMAN`). -/
def ValidCells (b : Board) : Prop :=
  ∀ c ∈ b, c = EMPTY ∨ c = AI ∨ c = HUMAN

instance (b : Board) : Decidable (ValidCells b) := by
  unfold ValidCells; infer_instance

/-- The reference minimax: same recurrence as `minimax`, defined without any
memo table (and without the board mutation, which `minimax` reverts anyway). -/
def minimaxRef : Nat → Board → Char → Int
  | 0, _, _ => 0
  | fuel + 1, b, turn =>
    if winner b = some AI then 1
    else if winner b = some HUMAN then -1
    else if is_draw b = true then 0
    else if turn = AI then
      (available_moves b).foldl
        (fun best m => imax best (minimaxRef fuel (b.set m AI) HUMAN)) (-10)
    else
      (available_moves b).foldl
        (fun best m => imin best (minimaxRef fuel (b.set m HUMAN) AI)) 10

/-- The perfect-play score of a position (reference minimax with sufficient
fuel: each ply fills one empty cell). -/
def minimaxSpec (b : Board) (turn : Char) : Int :=
  minimaxRef (countEmpty b + 1) b turn

/-!  Fast computation layer.  Kernel evaluation of the character-list board is
too slow for whole-game-tree facts, so boards are also packed into a natural
number, base 4, cell `i` at digit `i` (`0` = empty, `1` = X, `2` = O).  The
bridge lemmas below prove the packed operations compute the same functions;
the heavy concrete facts are then established by bounded certificate checkers
over packed boards and transported to `minimaxSpec`. -/

/-- Numeric code of a mark: `EMPTY ↦ 0`, `AI ↦ 1`, `HUMAN ↦ 2`. -/
def codeC (c : Char) : Nat :=
  if c = AI then 1 else if c = HUMAN then 2 else 0

/-- Pack a board into a base-4 natural number, cell `i` at digit `i`. -/
def packF : Board → Nat
  | [] => 0
  | c :: cs => packF cs * 4 + codeC c

/-- Cell `i` of a packed board. -/
def cellF (pb i : Nat) : Nat := pb / 4 ^ i % 4

/-- Place mark code `c` on the (empty) cell `i` of a packed board. -/
def placeF (pb i c : Nat) : Nat := pb + c * 4 ^ i

/-- Version of `available_moves` on a packed 9-cell board. -/
def movesF (pb : Nat) : List Nat :=
  (List.range 9).filter fun i => decide (cellF pb i = 0)

/-- Version of `winner` on a packed board (mark codes). -/
def winnerF (pb : Nat) : Option Nat :=
  WIN_LINES.findSome? fun l =>
    if cellF pb l.1 ≠ 0 ∧ cellF pb l.1 = cellF pb l.2.1 ∧
        cellF pb l.2.1 = cellF pb l.2.2 then
      some (cellF pb l.1)
    else
      none

/-- Version of `is_draw` on a packed 9-cell board. -/
def is_drawF (pb : Nat) : Bool :=
  (winnerF pb).isNone && (List.range 9).all fun i => decide (cellF pb i ≠ 0)

/-- Immediately winning moves for mark code `tc` on a packed board. -/
def winMovesF (pb tc : Nat) : List Nat :=
  (movesF pb).filter fun m => decide (winnerF (placeF pb m tc) = some tc)

/-- The opposing mark code. -/
def otherF (tc : Nat) : Nat := if tc = 1 then 2 else 1

/-- Moves of a packed board in a search-friendly order (own wins, blocks,
center, corners, edges); a sublist permutation-wise of `movesF`, used only on
the existential side of the certificate checkers. -/
def orderedF (pb tc : Nat) : List Nat :=
  winMovesF pb tc ++ winMovesF pb (otherF tc) ++
    ([4, 0, 2, 6, 8, 1, 3, 5, 7].filter fun i => (movesF pb).elem i)

/-- Certificate checker: `true` guarantees the perfect-play score of the
packed position is `≤ 0`.  The maximizer side ranges over all moves, the
minimizer side needs one good move (tried in `orderedF` order). -/
def ubCheckF : Nat → Nat → Nat → Bool
  | 0, _, _ => false
  | fuel + 1, pb, tc =>
    if winnerF pb = some 1 then false
    else if winnerF pb = some 2 then true
    else if is_drawF pb = true then true
    else if tc = 1 then (movesF pb).all fun m => ubCheckF fuel (placeF pb m 1) 2
    else (orderedF pb tc).any fun m => ubCheckF fuel (placeF pb m 2) 1

/-- Certificate checker: `true` guarantees the perfect-play score of the
packed position is `≥ 0`. -/
def lbCheckF : Nat → Nat → Nat → Bool
  | 0, _, _ => false
  | fuel + 1, pb, tc =>
    if winnerF pb = some 1 then true
    else if winnerF pb = some 2 then false
    else if is_drawF pb = true then true
    else if tc = 1 then (orderedF pb tc).any fun m => lbCheckF fuel (placeF pb m 1) 2
    else (movesF pb).all fun m => lbCheckF fuel (placeF pb m 2) 1

/-- The tie-break fold of `best_ai_move`: first strict improvement wins
(specification-side mirror of the move loop, scores given by `score`). -/
def pickBest (score : Nat → Int) : List Nat → Int → Int → Int
  | [], _, best_move => best_move
  | m :: rest, best_score, best_move =>
    if best_score < score m then pickBest score rest (score m) (Int.ofNat m)
    else pickBest score rest best_score best_move

/-- A position is terminal when it has a winner or no empty cell. -/
def IsTerminal (b : Board) : Prop :=
  winner b ≠ none ∨ available_moves b = []

/-- Predicate: `m` is a minimax-optimal HUMAN move on `b`. -/
def OptimalHuman (b : Board) (m : Nat) : Prop :=
  m ∈ available_moves b ∧
    ∀ m2 ∈ available_moves b,
      minimaxSpec (b.set m HUMAN) AI ≤ minimaxSpec (b.set m2 HUMAN) AI

/-- One ply of the perfect-play game: the AI plays `best_ai_move`, the HUMAN
plays any minimax-optimal move. -/
def Step (s s' : Board × Char) : Prop :=
  ¬IsTerminal s.1 ∧
    ((s.2 = AI ∧ s'.2 = HUMAN ∧
        ∃ m, m ∈ available_moves s.1 ∧ Int.ofNat m = best_ai_move s.1 ∧
          s'.1 = s.1.set m AI) ∨
     (s.2 = HUMAN ∧ s'.2 = AI ∧
        ∃ m, OptimalHuman s.1 m ∧ s'.1 = s.1.set m HUMAN))


/-- Scores cached in a memo during a search are perfect-play scores of the
keyed positions (soundness invariant of the memo table). -/
def MemoOK (memo : Memo) : Prop :=
  ∀ b t v, ValidCells b → (t = AI ∨ t = HUMAN) →
    memo.find? (encodeKey (board_key b t)) = some v → v = minimaxSpec b t

/-- All values cached in a memo lie in the score range. -/
def MemoRange (memo : Memo) : Prop :=
  ∀ k v, memo.find? k = some v → -1 ≤ v ∧ v ≤ 1

/-! Basic board lemmas. -/

theorem mem_available_moves {b : Board} {m : Nat} :
    m ∈ available_moves b ↔ m < b.length ∧ b.getD m EMPTY = EMPTY := by
  simp [available_moves, List.mem_filter, List.mem_range]

theorem available_moves_pairwise (b : Board) :
    (available_moves b).Pairwise (· < ·) :=
  (List.pairwise_lt_range b.length).filter _

theorem set_eq_self_of_getD {b : Board} {m : Nat}
    (h : b.getD m EMPTY = EMPTY) : b.set m EMPTY = b := by
  induction b generalizing m with
  | nil => rfl
  | cons hd tl ih =>
    cases m with
    | zero =>
      have hhd : hd = EMPTY := by simpa [List.getD] using h
      simp [List.set, hhd]
    | succ m =>
      simp only [List.getD_cons_succ] at h
      simp [List.set, ih h]

theorem set_set_revert {b : Board} {m : Nat} (c : Char)
    (h : b.getD m EMPTY = EMPTY) : (b.set m c).set m EMPTY = b := by
  rw [List.set_set]; exact set_eq_self_of_getD h

theorem countEmpty_set_add_one {b : Board} {m : Nat} {c : Char}
    (hm : m < b.length) (he : b.getD m EMPTY = EMPTY) (hc : c ≠ EMPTY) :
    countEmpty (b.set m c) + 1 = countEmpty b := by
  induction b generalizing m with
  | nil => simp at hm
  | cons hd tl ih =>
    cases m with
    | zero =>
      have hhd : hd = EMPTY := by simpa [List.getD] using he
      subst hhd
      have hcf : (c == EMPTY) = false := beq_eq_false_iff_ne.mpr hc
      have hef : (EMPTY == EMPTY) = true := beq_self_eq_true EMPTY
      simp [countEmpty, List.set, List.count_cons, hcf, hef]
      try omega
    | succ m =>
      simp only [List.getD_cons_succ] at he
      simp only [List.length_cons, Nat.succ_lt_succ_iff] at hm
      have := ih hm he
      simp only [countEmpty, List.set, List.count_cons] at this ⊢
      omega

theorem countEmpty_pos {b : Board} {m : Nat} (h : m ∈ available_moves b) :
    0 < countEmpty b := by
  rcases mem_available_moves.1 h with ⟨hm, he⟩
  have hmem : EMPTY ∈ b := by
    rw [List.getD_eq_getElem b EMPTY hm] at he
    rw [← he]
    exact List.getElem_mem hm
  simpa [countEmpty] using List.count_pos_iff.2 hmem

theorem countEmpty_le_length (b : Board) : countEmpty b ≤ b.length :=
  List.count_le_length EMPTY b

theorem exists_move_of_not_terminal {b : Board} (hw : winner b = none)
    (hd : is_draw b = false) : available_moves b ≠ [] := by
  rw [is_draw, hw] at hd
  simp only [Option.isNone_none, Bool.true_and, List.all_eq_false] at hd
  rcases hd with ⟨c, hc, hne⟩
  have hc' : c = EMPTY := by simpa using hne
  subst hc'
  rcases List.mem_iff_getElem.1 hc with ⟨i, hi, hgi⟩
  have : i ∈ available_moves b :=
    mem_available_moves.2 ⟨hi, by rw [List.getD_eq_getElem b EMPTY hi]; exact hgi⟩
  intro hnil
  rw [hnil] at this
  exact (List.not_mem_nil i) this

theorem ValidCells_set {b : Board} {m : Nat} {c : Char} (hb : ValidCells b)
    (hc : c = EMPTY ∨ c = AI ∨ c = HUMAN) : ValidCells (b.set m c) := by
  intro x hx
  rcases List.mem_or_eq_of_mem_set hx with h | h
  · exact hb x h
  · exact h ▸ hc

/-! Memo-table lemmas. -/

theorem Memo.find?_leaf (k : Nat) : Memo.leaf.find? k = none := rfl

theorem Memo.find?_insert (t : Memo) (k : Nat) (v : Int) (k2 : Nat) :
    (t.insert k v).find? k2 = if k2 = k then some v else t.find? k2 := by
  induction t with
  | leaf =>
    simp only [Memo.insert, Memo.find?]
    split_ifs <;> first | rfl | (exfalso; omega)
  | node l k0 v0 r ihl ihr =>
    simp only [Memo.insert]
    by_cases h1 : k < k0
    · rw [if_pos h1]
      simp only [Memo.find?, ihl]
      split_ifs <;> first | rfl | (exfalso; omega)
    · rw [if_neg h1]
      by_cases h2 : k0 < k
      · rw [if_pos h2]
        simp only [Memo.find?, ihr]
        split_ifs <;> first | rfl | (exfalso; omega)
      · rw [if_neg h2]
        have hk : k0 = k := by omega
        subst hk
        simp only [Memo.find?]
        split_ifs <;> first | rfl | (exfalso; omega)

/-! Fold and score-order helper lemmas. -/

theorem le_imax_left (a b : Int) : a ≤ imax a b := by
  unfold imax; split <;> omega

theorem le_imax_right (a b : Int) : b ≤ imax a b := by
  unfold imax; split <;> omega

theorem imax_le {a b c : Int} (ha : a ≤ c) (hb : b ≤ c) : imax a b ≤ c := by
  unfold imax; split <;> omega

theorem imin_le_left (a b : Int) : imin a b ≤ a := by
  unfold imin; split <;> omega

theorem imin_le_right (a b : Int) : imin a b ≤ b := by
  unfold imin; split <;> omega

theorem le_imin {a b c : Int} (ha : c ≤ a) (hb : c ≤ b) : c ≤ imin a b := by
  unfold imin; split <;> omega

theorem foldl_congr_mem {α β : Type} (l : List β) (f g : α → β → α) (a : α)
    (h : ∀ acc x, x ∈ l → f acc x = g acc x) : l.foldl f a = l.foldl g a := by
  induction l generalizing a with
  | nil => rfl
  | cons hd tl ih =>
    rw [List.foldl_cons, List.foldl_cons, h a hd (by simp)]
    exact ih _ fun acc x hx => h acc x (by simp [hx])

theorem foldl_imax_init_le (l : List Nat) (f : Nat → Int) (a : Int) :
    a ≤ l.foldl (fun x m => imax x (f m)) a := by
  induction l generalizing a with
  | nil => exact le_refl a
  | cons hd tl ih =>
    rw [List.foldl_cons]
    exact le_trans (le_imax_left a (f hd)) (ih _)

theorem foldl_imax_elem_le (l : List Nat) (f : Nat → Int) (a : Int) {m : Nat}
    (hm : m ∈ l) : f m ≤ l.foldl (fun x m2 => imax x (f m2)) a := by
  induction l generalizing a with
  | nil => cases hm
  | cons hd tl ih =>
    rw [List.foldl_cons]
    rcases List.mem_cons.1 hm with rfl | hm2
    · exact le_trans (le_imax_right a (f m)) (foldl_imax_init_le tl f _)
    · exact ih _ hm2

theorem foldl_imax_le {l : List Nat} {f : Nat → Int} {a c : Int}
    (ha : a ≤ c) (h : ∀ m ∈ l, f m ≤ c) :
    l.foldl (fun x m => imax x (f m)) a ≤ c := by
  induction l generalizing a with
  | nil => exact ha
  | cons hd tl ih =>
    rw [List.foldl_cons]
    exact ih (imax_le ha (h hd (by simp))) fun m hm => h m (by simp [hm])

theorem foldl_imax_init_or_elem (l : List Nat) (f : Nat → Int) (a : Int) :
    l.foldl (fun x m => imax x (f m)) a = a ∨
      ∃ m ∈ l, l.foldl (fun x m2 => imax x (f m2)) a = f m := by
  induction l generalizing a with
  | nil => exact Or.inl rfl
  | cons hd tl ih =>
    rw [List.foldl_cons]
    rcases ih (imax a (f hd)) with h | ⟨m, hm, h⟩
    · rw [h]
      unfold imax
      split
      · exact Or.inr ⟨hd, by simp, rfl⟩
      · exact Or.inl rfl
    · exact Or.inr ⟨m, by simp [hm], h⟩

theorem foldl_imin_le_init (l : List Nat) (f : Nat → Int) (a : Int) :
    l.foldl (fun x m => imin x (f m)) a ≤ a := by
  induction l generalizing a with
  | nil => exact le_refl a
  | cons hd tl ih =>
    rw [List.foldl_cons]
    exact le_trans (ih _) (imin_le_left a (f hd))

theorem foldl_imin_le_elem (l : List Nat) (f : Nat → Int) (a : Int) {m : Nat}
    (hm : m ∈ l) : l.foldl (fun x m2 => imin x (f m2)) a ≤ f m := by
  induction l generalizing a with
  | nil => cases hm
  | cons hd tl ih =>
    rw [List.foldl_cons]
    rcases List.mem_cons.1 hm with rfl | hm2
    · exact le_trans (foldl_imin_le_init tl f _) (imin_le_right a (f m))
    · exact ih _ hm2

theorem le_foldl_imin {l : List Nat} {f : Nat → Int} {a c : Int}
    (ha : c ≤ a) (h : ∀ m ∈ l, c ≤ f m) :
    c ≤ l.foldl (fun x m => imin x (f m)) a := by
  induction l generalizing a with
  | nil => exact ha
  | cons hd tl ih =>
    rw [List.foldl_cons]
    exact ih (le_imin ha (h hd (by simp))) fun m hm => h m (by simp [hm])

theorem foldl_imin_init_or_elem (l : List Nat) (f : Nat → Int) (a : Int) :
    l.foldl (fun x m => imin x (f m)) a = a ∨
      ∃ m ∈ l, l.foldl (fun x m2 => imin x (f m2)) a = f m := by
  induction l generalizing a with
  | nil => exact Or.inl rfl
  | cons hd tl ih =>
    rw [List.foldl_cons]
    rcases ih (imin a (f hd)) with h | ⟨m, hm, h⟩
    · rw [h]
      unfold imin
      split
      · exact Or.inr ⟨hd, by simp, rfl⟩
      · exact Or.inl rfl
    · exact Or.inr ⟨m, by simp [hm], h⟩

/-! Injectivity of the memo key. -/

theorem mark_toNat_lt {c : Char} (h : c = EMPTY ∨ c = AI ∨ c = HUMAN) :
    c.toNat < 256 := by
  rcases h with rfl | rfl | rfl <;> decide

theorem mark_toNat_inj {c c2 : Char} (h : c = EMPTY ∨ c = AI ∨ c = HUMAN)
    (h2 : c2 = EMPTY ∨ c2 = AI ∨ c2 = HUMAN) (he : c.toNat = c2.toNat) :
    c = c2 := by
  rcases h with rfl | rfl | rfl <;> rcases h2 with rfl | rfl | rfl <;>
    revert he <;> decide

theorem encodeKey_pos (k : List Char) : 1 ≤ encodeKey k := by
  induction k with
  | nil => exact le_refl 1
  | cons c cs ih =>
    unfold encodeKey
    omega

theorem encodeKey_inj :
    ∀ {k k2 : List Char}, (∀ c ∈ k, c = EMPTY ∨ c = AI ∨ c = HUMAN) →
      (∀ c ∈ k2, c = EMPTY ∨ c = AI ∨ c = HUMAN) →
      encodeKey k = encodeKey k2 → k = k2 := by
  intro k
  induction k with
  | nil =>
    intro k2 _ h2 he
    cases k2 with
    | nil => rfl
    | cons d ds =>
      exfalso
      have hpos := encodeKey_pos ds
      have hlt := mark_toNat_lt (h2 d (by simp))
      unfold encodeKey at he
      omega
  | cons c cs ih =>
    intro k2 h h2 he
    cases k2 with
    | nil =>
      exfalso
      have hpos := encodeKey_pos cs
      have hlt := mark_toNat_lt (h c (by simp))
      unfold encodeKey at he
      omega
    | cons d ds =>
      unfold encodeKey at he
      have hc := mark_toNat_lt (h c (by simp))
      have hd := mark_toNat_lt (h2 d (by simp))
      have hcd : c.toNat = d.toNat ∧ encodeKey cs = encodeKey ds := by
        constructor <;> omega
      have hce : c = d := mark_toNat_inj (h c (by simp)) (h2 d (by simp)) hcd.1
      have hcs : cs = ds :=
        ih (fun x hx => h x (by simp [hx])) (fun x hx => h2 x (by simp [hx])) hcd.2
      rw [hce, hcs]

theorem board_key_inj {b : Board} {t : Char} {b2 : Board} {t2 : Char}
    (h : board_key b t = board_key b2 t2) : b = b2 ∧ t = t2 := by
  unfold board_key at h
  have hlen : b.length = b2.length := by
    have hl := congrArg List.length h
    simp at hl
    exact hl
  rcases List.append_inj h hlen with ⟨hb, ht⟩
  refine ⟨hb, ?_⟩
  simpa using ht


/-! Frame lemmas: every mutating function restores the board. -/

theorem winning_moves_fold (b : Board) (p : Char) :
    ∀ ms : List Nat, (∀ m ∈ ms, b.getD m EMPTY = EMPTY) → ∀ acc : List Nat,
      ms.foldl
        (fun acc m =>
          let b1 := acc.2.set m p
          let wins := if winner b1 = some p then acc.1 ++ [m] else acc.1
          (wins, b1.set m EMPTY))
        (acc, b)
      = (acc ++ ms.filter fun m => decide (winner (b.set m p) = some p), b) := by
  intro ms
  induction ms with
  | nil =>
    intro _ acc
    simp
  | cons m tl ih =>
    intro hms acc
    rw [List.foldl_cons]
    have hm : b.getD m EMPTY = EMPTY := hms m (by simp)
    have hrev : (b.set m p).set m EMPTY = b := set_set_revert p hm
    by_cases hwin : winner (b.set m p) = some p
    · simp only [hrev, if_pos hwin]
      rw [ih (fun m2 h2 => hms m2 (by simp [h2])) (acc ++ [m])]
      simp [List.filter_cons, hwin]
    · simp only [hrev, if_neg hwin]
      rw [ih (fun m2 h2 => hms m2 (by simp [h2])) acc]
      simp [List.filter_cons, hwin]

theorem winning_movesM_eq (b : Board) (p : Char) :
    winning_movesM b p =
      ((available_moves b).filter fun m => decide (winner (b.set m p) = some p),
        b) := by
  unfold winning_movesM
  rw [winning_moves_fold b p (available_moves b)
      (fun m hm => (mem_available_moves.1 hm).2) []]
  simp

theorem winning_movesM_board (b : Board) (p : Char) :
    (winning_movesM b p).2 = b := by
  rw [winning_movesM_eq]

theorem winning_moves_filter (b : Board) (p : Char) :
    winning_moves b p =
      (available_moves b).filter fun m => decide (winner (b.set m p) = some p) := by
  unfold winning_moves
  rw [winning_movesM_eq]

theorem minimaxM_fold_board (fuel : Nat) (mark oturn : Char) (b : Board)
    (g : Int → Int → Int)
    (IH : ∀ b2 t2 memo2, (minimaxM fuel b2 t2 memo2).2.1 = b2) :
    ∀ ms : List Nat, (∀ m ∈ ms, b.getD m EMPTY = EMPTY) →
    ∀ acc : Int × Board × Memo, acc.2.1 = b →
      (ms.foldl
        (fun acc m =>
          let s := minimaxM fuel (acc.2.1.set m mark) oturn acc.2.2
          (g acc.1 s.1, s.2.1.set m EMPTY, s.2.2))
        acc).2.1 = b := by
  intro ms
  induction ms with
  | nil =>
    intro _ acc hacc
    exact hacc
  | cons m tl ih =>
    intro hms acc hacc
    rw [List.foldl_cons]
    refine ih (fun m2 h2 => hms m2 (by simp [h2])) _ ?_
    show ((minimaxM fuel (acc.2.1.set m mark) oturn acc.2.2).2.1.set m EMPTY) = b
    rw [IH]
    rw [hacc]
    exact set_set_revert mark (hms m (by simp))

theorem minimaxM_board (fuel : Nat) (b : Board) (t : Char) (memo : Memo) :
    (minimaxM fuel b t memo).2.1 = b := by
  induction fuel generalizing b t memo with
  | zero => rfl
  | succ fuel ih =>
    show (minimaxM (fuel + 1) b t memo).2.1 = b
    rw [minimaxM]
    by_cases h1 : winner b = some AI
    · rw [if_pos h1]
    · rw [if_neg h1]
      by_cases h2 : winner b = some HUMAN
      · rw [if_pos h2]
      · rw [if_neg h2]
        by_cases h3 : is_draw b = true
        · rw [if_pos h3]
        · rw [if_neg h3]
          cases hf : Memo.find? memo (encodeKey (board_key b t)) with
          | some v => simp [hf]
          | none =>
            simp only [hf]
            by_cases h4 : t = AI
            · rw [if_pos h4]
              exact minimaxM_fold_board fuel AI HUMAN b imax
                (fun b2 t2 memo2 => ih b2 t2 memo2) (available_moves b)
                (fun m hm => (mem_available_moves.1 hm).2) (-10, b, memo) rfl
            · rw [if_neg h4]
              exact minimaxM_fold_board fuel HUMAN AI b imin
                (fun b2 t2 memo2 => ih b2 t2 memo2) (available_moves b)
                (fun m hm => (mem_available_moves.1 hm).2) (10, b, memo) rfl

theorem minimax_board (b : Board) (t : Char) (memo : Memo) :
    (minimax b t memo).2.1 = b :=
  minimaxM_board (b.length + 1) b t memo

theorem best_ai_moveGo_board (b : Board) :
    ∀ ms : List Nat, (∀ m ∈ ms, b.getD m EMPTY = EMPTY) →
    ∀ (bs bm : Int) (memo : Memo),
      (best_ai_moveGo ms bs bm b memo).2 = b := by
  intro ms
  induction ms with
  | nil =>
    intro _ bs bm memo
    rfl
  | cons m tl ih =>
    intro hms bs bm memo
    have hm : b.getD m EMPTY = EMPTY := hms m (by simp)
    have hrev : (b.set m AI).set m EMPTY = b := set_set_revert AI hm
    rw [best_ai_moveGo]
    by_cases hwin : winner (b.set m AI) = some AI
    · rw [if_pos hwin]
      exact hrev
    · rw [if_neg hwin]
      have hb1 : (winning_movesM (b.set m AI) HUMAN).2 = b.set m AI :=
        winning_movesM_board _ _
      simp only [hb1]
      have hrb : (minimax (b.set m AI) HUMAN memo).2.1 = b.set m AI :=
        minimax_board _ _ _
      simp only [hrb, hrev]
      by_cases hlt : bs < (minimax (b.set m AI) HUMAN memo).1
      · rw [if_pos hlt]
        exact ih (fun m2 h2 => hms m2 (by simp [h2])) _ _ _
      · rw [if_neg hlt]
        exact ih (fun m2 h2 => hms m2 (by simp [h2])) _ _ _

theorem best_ai_moveM_board (b : Board) : (best_ai_moveM b).2 = b := by
  show (best_ai_moveGo (available_moves (winning_movesM b HUMAN).2) (-10) (-1)
      (winning_movesM b HUMAN).2 Memo.leaf).2 = b
  rw [winning_movesM_board]
  exact best_ai_moveGo_board b (available_moves b)
    (fun m hm => (mem_available_moves.1 hm).2) (-10) (-1) Memo.leaf


/-! Winner lemmas. -/

theorem winner_some_spec {b : Board} {w : Char} (h : winner b = some w) :
    ∃ l ∈ WIN_LINES, b.getD l.1 EMPTY ≠ EMPTY ∧
      b.getD l.1 EMPTY = b.getD l.2.1 EMPTY ∧
      b.getD l.2.1 EMPTY = b.getD l.2.2 EMPTY ∧ w = b.getD l.1 EMPTY := by
  unfold winner at h
  rcases List.exists_of_findSome?_eq_some h with ⟨l, hl, hf⟩
  by_cases hc : b.getD l.1 EMPTY ≠ EMPTY ∧ b.getD l.1 EMPTY = b.getD l.2.1 EMPTY ∧
      b.getD l.2.1 EMPTY = b.getD l.2.2 EMPTY
  · rw [if_pos hc] at hf
    have hw : w = b.getD l.1 EMPTY := by
      injection hf with hf2
      exact hf2.symm
    exact ⟨l, hl, hc.1, hc.2.1, hc.2.2, hw⟩
  · rw [if_neg hc] at hf
    cases hf

theorem winner_ne_empty {b : Board} {w : Char} (h : winner b = some w) :
    w ≠ EMPTY := by
  rcases winner_some_spec h with ⟨l, _, hne, _, _, hw⟩
  rw [hw]
  exact hne

theorem winner_mem {b : Board} {w : Char} (h : winner b = some w) : w ∈ b := by
  rcases winner_some_spec h with ⟨l, _, hne, _, _, hw⟩
  have hlt : l.1 < b.length := by
    by_contra hge
    rw [List.getD_eq_default] at hne
    · exact hne rfl
    · omega
  rw [hw, List.getD_eq_getElem b EMPTY hlt]
  exact List.getElem_mem hlt

theorem winner_valid {b : Board} {w : Char} (hval : ValidCells b)
    (h : winner b = some w) : w = AI ∨ w = HUMAN := by
  rcases hval w (winner_mem h) with he | hm | hm
  · exact absurd he (winner_ne_empty h)
  · exact Or.inl hm
  · exact Or.inr hm

theorem winner_of_line {b : Board} {l : Nat × Nat × Nat} (hl : l ∈ WIN_LINES)
    (hne : b.getD l.1 EMPTY ≠ EMPTY)
    (h12 : b.getD l.1 EMPTY = b.getD l.2.1 EMPTY)
    (h23 : b.getD l.2.1 EMPTY = b.getD l.2.2 EMPTY) :
    ∃ w, winner b = some w := by
  cases hw : winner b with
  | some w => exact ⟨w, rfl⟩
  | none =>
    exfalso
    unfold winner at hw
    rw [List.findSome?_eq_none] at hw
    have := hw l hl
    rw [if_pos ⟨hne, h12, h23⟩] at this
    cases this

/-! Reference minimax: fuel irrelevance, unfolding, range. -/

theorem minimaxRef_congr (f : Nat) :
    ∀ g b t, countEmpty b < f → countEmpty b < g →
      minimaxRef f b t = minimaxRef g b t := by
  induction f using Nat.strong_induction_on with
  | _ f IH =>
    intro g b t hf hg
    cases f with
    | zero => omega
    | succ f =>
      cases g with
      | zero => omega
      | succ g =>
        simp only [minimaxRef]
        by_cases h1 : winner b = some AI
        · rw [if_pos h1, if_pos h1]
        · rw [if_neg h1, if_neg h1]
          by_cases h2 : winner b = some HUMAN
          · rw [if_pos h2, if_pos h2]
          · rw [if_neg h2, if_neg h2]
            by_cases h3 : is_draw b = true
            · rw [if_pos h3, if_pos h3]
            · rw [if_neg h3, if_neg h3]
              by_cases h4 : t = AI
              · rw [if_pos h4, if_pos h4]
                refine foldl_congr_mem _ _ _ _ ?_
                intro acc m hm
                have hmm := mem_available_moves.1 hm
                have hce : countEmpty (b.set m AI) + 1 = countEmpty b :=
                  countEmpty_set_add_one hmm.1 hmm.2 (by decide)
                rw [IH f (by omega) g (b.set m AI) HUMAN (by omega) (by omega)]
              · rw [if_neg h4, if_neg h4]
                refine foldl_congr_mem _ _ _ _ ?_
                intro acc m hm
                have hmm := mem_available_moves.1 hm
                have hce : countEmpty (b.set m HUMAN) + 1 = countEmpty b :=
                  countEmpty_set_add_one hmm.1 hmm.2 (by decide)
                rw [IH f (by omega) g (b.set m HUMAN) AI (by omega) (by omega)]

theorem minimaxSpec_eq_ref {f : Nat} {b : Board} {t : Char}
    (hf : countEmpty b < f) : minimaxRef f b t = minimaxSpec b t :=
  minimaxRef_congr f (countEmpty b + 1) b t hf (by omega)

theorem minimaxSpec_winner_AI {b : Board} {t : Char} (h : winner b = some AI) :
    minimaxSpec b t = 1 := by
  unfold minimaxSpec
  simp only [minimaxRef]
  rw [if_pos h]

theorem minimaxSpec_winner_HUMAN {b : Board} {t : Char}
    (h : winner b = some HUMAN) : minimaxSpec b t = -1 := by
  unfold minimaxSpec
  simp only [minimaxRef]
  rw [if_neg (by rw [h]; decide), if_pos h]

theorem minimaxSpec_draw {b : Board} {t : Char} (hw : winner b = none)
    (hd : is_draw b = true) : minimaxSpec b t = 0 := by
  unfold minimaxSpec
  simp only [minimaxRef]
  rw [if_neg (by rw [hw]; decide), if_neg (by rw [hw]; decide), if_pos hd]

theorem minimaxSpec_unfold_AI {b : Board} (hw : winner b = none)
    (hd : is_draw b = false) :
    minimaxSpec b AI =
      (available_moves b).foldl
        (fun best m => imax best (minimaxSpec (b.set m AI) HUMAN)) (-10) := by
  have hne := exists_move_of_not_terminal hw hd
  rcases List.exists_mem_of_ne_nil _ hne with ⟨m0, hm0⟩
  have hpos : 0 < countEmpty b := countEmpty_pos hm0
  have hu : minimaxSpec b AI = minimaxRef (countEmpty b + 1) b AI := rfl
  rw [hu, minimaxRef]
  rw [if_neg (by rw [hw]; decide), if_neg (by rw [hw]; decide),
      if_neg (by rw [hd]; decide), if_pos rfl]
  refine foldl_congr_mem _ _ _ _ ?_
  intro acc m hm
  have hmm := mem_available_moves.1 hm
  have hce : countEmpty (b.set m AI) + 1 = countEmpty b :=
    countEmpty_set_add_one hmm.1 hmm.2 (by decide)
  rw [minimaxSpec_eq_ref (f := countEmpty b) (by omega)]

theorem minimaxSpec_unfold_other {b : Board} {t : Char} (hw : winner b = none)
    (hd : is_draw b = false) (ht : t ≠ AI) :
    minimaxSpec b t =
      (available_moves b).foldl
        (fun best m => imin best (minimaxSpec (b.set m HUMAN) AI)) 10 := by
  have hne := exists_move_of_not_terminal hw hd
  rcases List.exists_mem_of_ne_nil _ hne with ⟨m0, hm0⟩
  have hpos : 0 < countEmpty b := countEmpty_pos hm0
  have hu : minimaxSpec b t = minimaxRef (countEmpty b + 1) b t := rfl
  rw [hu, minimaxRef]
  rw [if_neg (by rw [hw]; decide), if_neg (by rw [hw]; decide),
      if_neg (by rw [hd]; decide), if_neg ht]
  refine foldl_congr_mem _ _ _ _ ?_
  intro acc m hm
  have hmm := mem_available_moves.1 hm
  have hce : countEmpty (b.set m HUMAN) + 1 = countEmpty b :=
    countEmpty_set_add_one hmm.1 hmm.2 (by decide)
  rw [minimaxSpec_eq_ref (f := countEmpty b) (by omega)]

theorem minimaxRef_range (f : Nat) :
    ∀ b t, ValidCells b →
      -1 ≤ minimaxRef f b t ∧ minimaxRef f b t ≤ 1 := by
  induction f with
  | zero =>
    intro b t _
    constructor <;> simp [minimaxRef]
  | succ f ih =>
    intro b t hval
    simp only [minimaxRef]
    by_cases h1 : winner b = some AI
    · rw [if_pos h1]; constructor <;> norm_num
    · rw [if_neg h1]
      by_cases h2 : winner b = some HUMAN
      · rw [if_pos h2]; constructor <;> norm_num
      · rw [if_neg h2]
        have hwn : winner b = none := by
          cases hw : winner b with
          | none => rfl
          | some w =>
            rcases winner_valid hval hw with rfl | rfl
            · exact absurd hw h1
            · exact absurd hw h2
        by_cases h3 : is_draw b = true
        · rw [if_pos h3]; constructor <;> norm_num
        · rw [if_neg h3]
          have h3f : is_draw b = false := Bool.eq_false_iff.mpr h3
          have hne := exists_move_of_not_terminal hwn h3f
          rcases List.exists_mem_of_ne_nil _ hne with ⟨m0, hm0⟩
          by_cases h4 : t = AI
          · rw [if_pos h4]
            have hchild : ∀ m ∈ available_moves b,
                -1 ≤ minimaxRef f (b.set m AI) HUMAN ∧
                  minimaxRef f (b.set m AI) HUMAN ≤ 1 := by
              intro m hm
              exact ih (b.set m AI) HUMAN (ValidCells_set hval (by simp))
            constructor
            · rcases foldl_imax_init_or_elem (available_moves b)
                  (fun m => minimaxRef f (b.set m AI) HUMAN) (-10) with he | ⟨m, hm, he⟩
              · exfalso
                have hle := foldl_imax_elem_le (available_moves b)
                  (fun m => minimaxRef f (b.set m AI) HUMAN) (-10) hm0
                rw [he] at hle
                have hle2 : minimaxRef f (b.set m0 AI) HUMAN ≤ -10 := hle
                have := (hchild m0 hm0).1
                omega
              · rw [he]
                exact (hchild m hm).1
            · exact foldl_imax_le (by norm_num) fun m hm => (hchild m hm).2
          · rw [if_neg h4]
            have hchild : ∀ m ∈ available_moves b,
                -1 ≤ minimaxRef f (b.set m HUMAN) AI ∧
                  minimaxRef f (b.set m HUMAN) AI ≤ 1 := by
              intro m hm
              exact ih (b.set m HUMAN) AI (ValidCells_set hval (by simp))
            constructor
            · exact le_foldl_imin (by norm_num) fun m hm => (hchild m hm).1
            · rcases foldl_imin_init_or_elem (available_moves b)
                  (fun m => minimaxRef f (b.set m HUMAN) AI) 10 with he | ⟨m, hm, he⟩
              · exfalso
                have hle := foldl_imin_le_elem (available_moves b)
                  (fun m => minimaxRef f (b.set m HUMAN) AI) 10 hm0
                rw [he] at hle
                have hle2 : (10 : Int) ≤ minimaxRef f (b.set m0 HUMAN) AI := hle
                have := (hchild m0 hm0).2
                omega
              · rw [he]
                exact (hchild m hm).2

theorem minimaxSpec_range {b : Board} {t : Char} (hval : ValidCells b) :
    -1 ≤ minimaxSpec b t ∧ minimaxSpec b t ≤ 1 :=
  minimaxRef_range (countEmpty b + 1) b t hval


/-! Bridge between the packed board and the board model. -/

theorem getD_valid {b : Board} (hval : ValidCells b) (i : Nat)
    (hi : i < b.length) :
    b.getD i EMPTY = EMPTY ∨ b.getD i EMPTY = AI ∨ b.getD i EMPTY = HUMAN := by
  rw [List.getD_eq_getElem b EMPTY hi]
  exact hval _ (List.getElem_mem hi)

theorem codeC_lt (c : Char) : codeC c < 4 := by
  unfold codeC
  split_ifs <;> norm_num

theorem codeC_eq_zero {c : Char} (h : c = EMPTY ∨ c = AI ∨ c = HUMAN) :
    codeC c = 0 ↔ c = EMPTY := by
  rcases h with rfl | rfl | rfl <;> decide

theorem codeC_inj {c c2 : Char} (h : c = EMPTY ∨ c = AI ∨ c = HUMAN)
    (h2 : c2 = EMPTY ∨ c2 = AI ∨ c2 = HUMAN) :
    codeC c = codeC c2 ↔ c = c2 := by
  rcases h with rfl | rfl | rfl <;> rcases h2 with rfl | rfl | rfl <;> decide

theorem cellF_packF : ∀ (b : Board) (i : Nat), i < b.length →
    cellF (packF b) i = codeC (b.getD i EMPTY) := by
  intro b
  induction b with
  | nil => intro i hi; simp at hi
  | cons c cs ih =>
    intro i hi
    cases i with
    | zero =>
      show (packF cs * 4 + codeC c) / 4 ^ 0 % 4 = codeC c
      have hlt := codeC_lt c
      simp only [pow_zero, Nat.div_one]
      omega
    | succ i =>
      show (packF cs * 4 + codeC c) / 4 ^ (i + 1) % 4 = codeC (cs.getD i EMPTY)
      have hlt := codeC_lt c
      have h4 : (packF cs * 4 + codeC c) / 4 ^ (i + 1) = packF cs / 4 ^ i := by
        rw [pow_succ']
        rw [← Nat.div_div_eq_div_mul]
        congr 1
        omega
      rw [h4]
      exact ih i (by simpa using hi)

theorem packF_set : ∀ (b : Board) (m : Nat) (c : Char), m < b.length →
    b.getD m EMPTY = EMPTY →
    packF (b.set m c) = placeF (packF b) m (codeC c) := by
  intro b
  induction b with
  | nil => intro m c hm; simp at hm
  | cons hd tl ih =>
    intro m c hm he
    cases m with
    | zero =>
      have hhd : hd = EMPTY := by simpa [List.getD] using he
      subst hhd
      show packF tl * 4 + codeC c = placeF (packF tl * 4 + codeC EMPTY) 0 (codeC c)
      have h0 : codeC EMPTY = 0 := by decide
      simp [placeF, h0]
    | succ m =>
      simp only [List.getD_cons_succ] at he
      simp only [List.length_cons, Nat.succ_lt_succ_iff] at hm
      show packF (tl.set m c) * 4 + codeC hd =
        placeF (packF tl * 4 + codeC hd) (m + 1) (codeC c)
      rw [ih m c hm he]
      unfold placeF
      rw [pow_succ]
      ring

theorem movesF_packF {b : Board} (hval : ValidCells b) (hlen : b.length = 9) :
    movesF (packF b) = available_moves b := by
  unfold movesF available_moves
  rw [hlen]
  refine List.filter_congr ?_
  intro i hi
  rw [List.mem_range] at hi
  rw [cellF_packF b i (by omega)]
  rw [decide_eq_decide]
  exact codeC_eq_zero (getD_valid hval i (by omega))

theorem findSome?_map_rel {α β γ : Type} (L : List α) (f : α → Option γ)
    (g : α → Option β) (h : γ → β)
    (hrel : ∀ l ∈ L, g l = (f l).map h) :
    L.findSome? g = (L.findSome? f).map h := by
  induction L with
  | nil => rfl
  | cons hd tl ih =>
    rw [List.findSome?_cons, List.findSome?_cons, hrel hd (by simp)]
    cases hf : f hd with
    | some x => simp
    | none =>
      simp only [Option.map_none]
      exact ih fun l hl => hrel l (by simp [hl])

theorem winnerF_packF {b : Board} (hval : ValidCells b) (hlen : b.length = 9) :
    winnerF (packF b) = (winner b).map codeC := by
  unfold winnerF winner
  refine findSome?_map_rel WIN_LINES _ _ codeC ?_
  intro l hl
  have hl9 : l.1 < 9 ∧ l.2.1 < 9 ∧ l.2.2 < 9 := by
    fin_cases hl <;> exact ⟨by norm_num, by norm_num, by norm_num⟩
  have hv1 := getD_valid hval l.1 (by omega)
  have hv2 := getD_valid hval l.2.1 (by omega)
  have hv3 := getD_valid hval l.2.2 (by omega)
  have e1 := cellF_packF b l.1 (by omega)
  have e2 := cellF_packF b l.2.1 (by omega)
  have e3 := cellF_packF b l.2.2 (by omega)
  have hiff : (cellF (packF b) l.1 ≠ 0 ∧
      cellF (packF b) l.1 = cellF (packF b) l.2.1 ∧
      cellF (packF b) l.2.1 = cellF (packF b) l.2.2) ↔
      (b.getD l.1 EMPTY ≠ EMPTY ∧
        b.getD l.1 EMPTY = b.getD l.2.1 EMPTY ∧
        b.getD l.2.1 EMPTY = b.getD l.2.2 EMPTY) := by
    rw [e1, e2, e3]
    constructor
    · intro ⟨h1, h2, h3⟩
      exact ⟨fun he => h1 (by rw [he]; exact (codeC_eq_zero (Or.inl rfl)).2 rfl),
        (codeC_inj hv1 hv2).1 h2, (codeC_inj hv2 hv3).1 h3⟩
    · intro ⟨h1, h2, h3⟩
      refine ⟨fun hz => h1 ((codeC_eq_zero hv1).1 hz), ?_, ?_⟩
      · rw [h2]
      · rw [h3]
  by_cases hc : b.getD l.1 EMPTY ≠ EMPTY ∧
      b.getD l.1 EMPTY = b.getD l.2.1 EMPTY ∧
      b.getD l.2.1 EMPTY = b.getD l.2.2 EMPTY
  · rw [if_pos (hiff.2 hc), if_pos hc, e1]
    rfl
  · rw [if_neg (fun hp => hc (hiff.1 hp)), if_neg hc]
    rfl

theorem all_range_getD {b : Board} (hlen : b.length = 9) (p : Char → Bool) :
    ((List.range 9).all fun i => p (b.getD i EMPTY)) = b.all p := by
  rw [Bool.eq_iff_iff, List.all_eq_true, List.all_eq_true]
  constructor
  · intro h x hx
    rcases List.mem_iff_getElem.1 hx with ⟨i, hi, hgi⟩
    have := h i (by rw [List.mem_range]; omega)
    rw [List.getD_eq_getElem b EMPTY hi, hgi] at this
    exact this
  · intro h i hi
    rw [List.mem_range] at hi
    have hi' : i < b.length := by omega
    rw [List.getD_eq_getElem b EMPTY hi']
    exact h _ (List.getElem_mem hi')

theorem is_drawF_packF {b : Board} (hval : ValidCells b) (hlen : b.length = 9) :
    is_drawF (packF b) = is_draw b := by
  unfold is_drawF is_draw
  rw [winnerF_packF hval hlen]
  have h2 : ((List.range 9).all fun i => decide (cellF (packF b) i ≠ 0)) =
      b.all fun x => decide (x ≠ EMPTY) := by
    have hc : ((List.range 9).all fun i => decide (cellF (packF b) i ≠ 0)) =
        (List.range 9).all fun i => decide (b.getD i EMPTY ≠ EMPTY) := by
      rw [Bool.eq_iff_iff, List.all_eq_true, List.all_eq_true]
      constructor
      · intro h i hi
        have hh := h i hi
        rw [List.mem_range] at hi
        rw [cellF_packF b i (by omega)] at hh
        simp only [decide_eq_true_eq] at hh ⊢
        intro he
        exact hh ((codeC_eq_zero (getD_valid hval i (by omega))).2 he)
      · intro h i hi
        have hh := h i hi
        rw [List.mem_range] at hi
        rw [cellF_packF b i (by omega)]
        simp only [decide_eq_true_eq] at hh ⊢
        intro hz
        exact hh ((codeC_eq_zero (getD_valid hval i (by omega))).1 hz)
    rw [hc]
    exact all_range_getD hlen fun x => decide (x ≠ EMPTY)
  rw [h2]
  cases winner b <;> rfl

theorem orderedF_subset {pb tc : Nat} : ∀ x ∈ orderedF pb tc, x ∈ movesF pb := by
  intro x hx
  unfold orderedF at hx
  rcases List.mem_append.1 hx with hx2 | hx2
  · rcases List.mem_append.1 hx2 with hx3 | hx3
    · exact (List.mem_filter.1 hx3).1
    · exact (List.mem_filter.1 hx3).1
  · have := (List.mem_filter.1 hx2).2
    exact List.elem_iff.1 this


/-! Soundness of the certificate checkers. -/

theorem ubCheckF_sound (fuel : Nat) :
    ∀ b t, ValidCells b → b.length = 9 → (t = AI ∨ t = HUMAN) →
      ubCheckF fuel (packF b) (codeC t) = true → minimaxSpec b t ≤ 0 := by
  induction fuel with
  | zero =>
    intro b t _ _ _ h
    simp [ubCheckF] at h
  | succ fuel ih =>
    intro b t hval hlen ht hchk
    rw [ubCheckF, winnerF_packF hval hlen, is_drawF_packF hval hlen] at hchk
    cases hw : winner b with
    | some w =>
      rcases winner_valid hval hw with rfl | rfl
      · rw [hw] at hchk
        rw [if_pos (show (some AI).map codeC = some 1 by decide)] at hchk
        simp at hchk
      · rw [minimaxSpec_winner_HUMAN hw]
        norm_num
    | none =>
      rw [hw] at hchk
      rw [if_neg (by decide), if_neg (by decide)] at hchk
      by_cases hd : is_draw b = true
      · rw [minimaxSpec_draw hw hd]
      · have hdf : is_draw b = false := Bool.eq_false_iff.mpr hd
        rw [if_neg hd] at hchk
        rcases ht with rfl | rfl
        · rw [if_pos (by decide)] at hchk
          rw [movesF_packF hval hlen, List.all_eq_true] at hchk
          rw [minimaxSpec_unfold_AI hw hdf]
          apply foldl_imax_le (by norm_num)
          intro m hm
          have hmm := mem_available_moves.1 hm
          have hch := hchk m hm
          have hplace : placeF (packF b) m 1 = packF (b.set m AI) := by
            rw [packF_set b m AI hmm.1 hmm.2]
            have hca : codeC AI = 1 := by decide
            rw [hca]
          rw [hplace] at hch
          have hc2 : codeC HUMAN = 2 := by decide
          rw [← hc2] at hch
          exact ih (b.set m AI) HUMAN (ValidCells_set hval (by simp))
            (by rw [List.length_set]; exact hlen) (Or.inr rfl) hch
        · rw [if_neg (by decide)] at hchk
          rw [List.any_eq_true] at hchk
          rcases hchk with ⟨m, hmo, hch⟩
          have hmF : m ∈ movesF (packF b) := orderedF_subset m hmo
          rw [movesF_packF hval hlen] at hmF
          have hmm := mem_available_moves.1 hmF
          rw [minimaxSpec_unfold_other hw hdf (by decide)]
          refine le_trans (foldl_imin_le_elem (available_moves b)
            (fun m2 => minimaxSpec (b.set m2 HUMAN) AI) 10 hmF) ?_
          have hplace : placeF (packF b) m 2 = packF (b.set m HUMAN) := by
            rw [packF_set b m HUMAN hmm.1 hmm.2]
            have hch2 : codeC HUMAN = 2 := by decide
            rw [hch2]
          rw [hplace] at hch
          have hc1 : codeC AI = 1 := by decide
          rw [← hc1] at hch
          exact ih (b.set m HUMAN) AI (ValidCells_set hval (by simp))
            (by rw [List.length_set]; exact hlen) (Or.inl rfl) hch

theorem lbCheckF_sound (fuel : Nat) :
    ∀ b t, ValidCells b → b.length = 9 → (t = AI ∨ t = HUMAN) →
      lbCheckF fuel (packF b) (codeC t) = true → 0 ≤ minimaxSpec b t := by
  induction fuel with
  | zero =>
    intro b t _ _ _ h
    simp [lbCheckF] at h
  | succ fuel ih =>
    intro b t hval hlen ht hchk
    rw [lbCheckF, winnerF_packF hval hlen, is_drawF_packF hval hlen] at hchk
    cases hw : winner b with
    | some w =>
      rcases winner_valid hval hw with rfl | rfl
      · rw [minimaxSpec_winner_AI hw]
        norm_num
      · rw [hw] at hchk
        rw [if_neg (show ¬(some HUMAN).map codeC = some 1 by decide),
            if_pos (show (some HUMAN).map codeC = some 2 by decide)] at hchk
        simp at hchk
    | none =>
      rw [hw] at hchk
      rw [if_neg (by decide), if_neg (by decide)] at hchk
      by_cases hd : is_draw b = true
      · rw [minimaxSpec_draw hw hd]
      · have hdf : is_draw b = false := Bool.eq_false_iff.mpr hd
        rw [if_neg hd] at hchk
        rcases ht with rfl | rfl
        · rw [if_pos (by decide)] at hchk
          rw [List.any_eq_true] at hchk
          rcases hchk with ⟨m, hmo, hch⟩
          have hmF : m ∈ movesF (packF b) := orderedF_subset m hmo
          rw [movesF_packF hval hlen] at hmF
          have hmm := mem_available_moves.1 hmF
          rw [minimaxSpec_unfold_AI hw hdf]
          refine le_trans ?_ (foldl_imax_elem_le (available_moves b)
            (fun m2 => minimaxSpec (b.set m2 AI) HUMAN) (-10) hmF)
          have hplace : placeF (packF b) m 1 = packF (b.set m AI) := by
            rw [packF_set b m AI hmm.1 hmm.2]
            have hca : codeC AI = 1 := by decide
            rw [hca]
          rw [hplace] at hch
          have hc2 : codeC HUMAN = 2 := by decide
          rw [← hc2] at hch
          exact ih (b.set m AI) HUMAN (ValidCells_set hval (by simp))
            (by rw [List.length_set]; exact hlen) (Or.inr rfl) hch
        · rw [if_neg (by decide)] at hchk
          rw [movesF_packF hval hlen, List.all_eq_true] at hchk
          rw [minimaxSpec_unfold_other hw hdf (by decide)]
          apply le_foldl_imin (by norm_num)
          intro m hm
          have hmm := mem_available_moves.1 hm
          have hch := hchk m hm
          have hplace : placeF (packF b) m 2 = packF (b.set m HUMAN) := by
            rw [packF_set b m HUMAN hmm.1 hmm.2]
            have hch2 : codeC HUMAN = 2 := by decide
            rw [hch2]
          rw [hplace] at hch
          have hc1 : codeC AI = 1 := by decide
          rw [← hc1] at hch
          exact ih (b.set m HUMAN) AI (ValidCells_set hval (by simp))
            (by rw [List.length_set]; exact hlen) (Or.inl rfl) hch


/-! Concrete game values, established by the certificate checkers. -/

set_option maxRecDepth 2000000
set_option maxHeartbeats 10000000

theorem emptyBoard_valid : ValidCells emptyBoard := by decide

theorem emptyBoard_len : emptyBoard.length = 9 := by decide

theorem childSpec_val (m : Nat)
    (hub : ubCheckF 9 (packF (emptyBoard.set m AI)) (codeC HUMAN) = true)
    (hlb : lbCheckF 9 (packF (emptyBoard.set m AI)) (codeC HUMAN) = true) :
    minimaxSpec (emptyBoard.set m AI) HUMAN = 0 := by
  have hv : ValidCells (emptyBoard.set m AI) :=
    ValidCells_set emptyBoard_valid (by simp)
  have hl : (emptyBoard.set m AI).length = 9 := by
    rw [List.length_set]; exact emptyBoard_len
  have h1 := ubCheckF_sound 9 _ HUMAN hv hl (Or.inr rfl) hub
  have h2 := lbCheckF_sound 9 _ HUMAN hv hl (Or.inr rfl) hlb
  omega

theorem childSpec_zero :
    ∀ m ∈ available_moves emptyBoard,
      minimaxSpec (emptyBoard.set m AI) HUMAN = 0 := by
  intro m hm
  have hm9 : m < 9 := by
    have hml := (mem_available_moves.1 hm).1
    rw [emptyBoard_len] at hml
    exact hml
  interval_cases m <;>
    exact childSpec_val _ (by decide!) (by decide!)

theorem spec_empty_AI : minimaxSpec emptyBoard AI = 0 := by
  have hw : winner emptyBoard = none := by decide
  have hd : is_draw emptyBoard = false := by decide
  rw [minimaxSpec_unfold_AI hw hd]
  have h0 : (0 : Nat) ∈ available_moves emptyBoard := by decide
  apply le_antisymm
  · apply foldl_imax_le (by norm_num)
    intro m hm
    rw [childSpec_zero m hm]
  · have hle := foldl_imax_elem_le (available_moves emptyBoard)
      (fun m => minimaxSpec (emptyBoard.set m AI) HUMAN) (-10) h0
    have hle2 : minimaxSpec (emptyBoard.set 0 AI) HUMAN ≤
        (available_moves emptyBoard).foldl
          (fun best m => imax best (minimaxSpec (emptyBoard.set m AI) HUMAN))
          (-10) := hle
    rw [childSpec_zero 0 h0] at hle2
    exact hle2

theorem spec_empty_HUMAN : minimaxSpec emptyBoard HUMAN = 0 := by
  have h1 := ubCheckF_sound 10 emptyBoard HUMAN emptyBoard_valid emptyBoard_len
    (Or.inr rfl) (by decide!)
  have h2 := lbCheckF_sound 10 emptyBoard HUMAN emptyBoard_valid emptyBoard_len
    (Or.inr rfl) (by decide!)
  omega




theorem board_key_valid {b : Board} {t : Char} (hval : ValidCells b)
    (ht : t = AI ∨ t = HUMAN) :
    ∀ c ∈ board_key b t, c = EMPTY ∨ c = AI ∨ c = HUMAN := by
  intro c hc
  unfold board_key at hc
  rcases List.mem_append.1 hc with hc2 | hc2
  · exact hval c hc2
  · have : c = t := by simpa using hc2
    subst this
    rcases ht with rfl | rfl
    · exact Or.inr (Or.inl rfl)
    · exact Or.inr (Or.inr rfl)

theorem MemoOK_leaf : MemoOK Memo.leaf := by
  intro b t v _ _ hfind
  cases hfind

theorem MemoOK_insert {memo : Memo} {b : Board} {t : Char} (hok : MemoOK memo)
    (hval : ValidCells b) (ht : t = AI ∨ t = HUMAN) :
    MemoOK (memo.insert (encodeKey (board_key b t)) (minimaxSpec b t)) := by
  intro b2 t2 v hval2 ht2 hfind
  rw [Memo.find?_insert] at hfind
  by_cases he : encodeKey (board_key b2 t2) = encodeKey (board_key b t)
  · rw [if_pos he] at hfind
    have hkeys : board_key b2 t2 = board_key b t :=
      encodeKey_inj (board_key_valid hval2 ht2) (board_key_valid hval ht) he
    rcases board_key_inj hkeys with ⟨rfl, rfl⟩
    injection hfind with hv
    exact hv.symm
  · rw [if_neg he] at hfind
    exact hok b2 t2 v hval2 ht2 hfind

theorem minimaxM_fold_spec_AI (fuel : Nat) (b : Board) (hval : ValidCells b)
    (hce : countEmpty b ≤ fuel)
    (IH : ∀ b2 memo2, countEmpty b2 < fuel → ValidCells b2 → MemoOK memo2 →
      (minimaxM fuel b2 HUMAN memo2).1 = minimaxSpec b2 HUMAN ∧
        MemoOK (minimaxM fuel b2 HUMAN memo2).2.2) :
    ∀ ms : List Nat, (∀ m ∈ ms, m ∈ available_moves b) →
    ∀ acc : Int × Board × Memo, acc.2.1 = b → MemoOK acc.2.2 →
      ∃ memo2,
        ms.foldl
          (fun acc m =>
            let s := minimaxM fuel (acc.2.1.set m AI) HUMAN acc.2.2
            (imax acc.1 s.1, s.2.1.set m EMPTY, s.2.2)) acc
          = (ms.foldl (fun a m => imax a (minimaxSpec (b.set m AI) HUMAN)) acc.1,
              b, memo2)
        ∧ MemoOK memo2 := by
  intro ms
  induction ms with
  | nil =>
    intro _ acc hacc hok
    rcases acc with ⟨a1, ab, amemo⟩
    have hab : b = ab := hacc.symm
    subst hab
    exact ⟨amemo, by simp only [List.foldl_nil], hok⟩
  | cons m tl ih =>
    intro hms acc hacc hok
    rcases acc with ⟨a1, ab, amemo⟩
    have hab : b = ab := hacc.symm
    subst hab
    have hok2 : MemoOK amemo := hok
    have hm := hms m (by simp)
    have hmm := mem_available_moves.1 hm
    have hlt : countEmpty (b.set m AI) < fuel := by
      have hc1 := countEmpty_set_add_one hmm.1 hmm.2
        (show AI ≠ EMPTY by decide)
      have hc2 := countEmpty_pos hm
      omega
    have hspec := IH (b.set m AI) amemo hlt (ValidCells_set hval (by simp)) hok2
    have hsb : (minimaxM fuel (b.set m AI) HUMAN amemo).2.1 = b.set m AI :=
      minimaxM_board fuel _ HUMAN _
    have hrev : (b.set m AI).set m EMPTY = b := set_set_revert AI hmm.2
    rw [List.foldl_cons, List.foldl_cons]
    have hstep :
        (let s := minimaxM fuel ((a1, b, amemo).2.1.set m AI) HUMAN
            (a1, b, amemo).2.2; (imax (a1, b, amemo).1 s.1,
            s.2.1.set m EMPTY, s.2.2)) =
        (imax a1 (minimaxSpec (b.set m AI) HUMAN), b,
          (minimaxM fuel (b.set m AI) HUMAN amemo).2.2) := by
      show (imax a1 (minimaxM fuel (b.set m AI) HUMAN amemo).1,
          (minimaxM fuel (b.set m AI) HUMAN amemo).2.1.set m EMPTY,
          (minimaxM fuel (b.set m AI) HUMAN amemo).2.2) = _
      rw [hsb, hrev, hspec.1]
    rw [hstep]
    exact ih (fun m2 h2 => hms m2 (by simp [h2]))
      (imax a1 (minimaxSpec (b.set m AI) HUMAN), b,
        (minimaxM fuel (b.set m AI) HUMAN amemo).2.2) rfl hspec.2

theorem minimaxM_fold_spec_HUMAN (fuel : Nat) (b : Board) (hval : ValidCells b)
    (hce : countEmpty b ≤ fuel)
    (IH : ∀ b2 memo2, countEmpty b2 < fuel → ValidCells b2 → MemoOK memo2 →
      (minimaxM fuel b2 AI memo2).1 = minimaxSpec b2 AI ∧
        MemoOK (minimaxM fuel b2 AI memo2).2.2) :
    ∀ ms : List Nat, (∀ m ∈ ms, m ∈ available_moves b) →
    ∀ acc : Int × Board × Memo, acc.2.1 = b → MemoOK acc.2.2 →
      ∃ memo2,
        ms.foldl
          (fun acc m =>
            let s := minimaxM fuel (acc.2.1.set m HUMAN) AI acc.2.2
            (imin acc.1 s.1, s.2.1.set m EMPTY, s.2.2)) acc
          = (ms.foldl (fun a m => imin a (minimaxSpec (b.set m HUMAN) AI)) acc.1,
              b, memo2)
        ∧ MemoOK memo2 := by
  intro ms
  induction ms with
  | nil =>
    intro _ acc hacc hok
    rcases acc with ⟨a1, ab, amemo⟩
    have hab : b = ab := hacc.symm
    subst hab
    exact ⟨amemo, by simp only [List.foldl_nil], hok⟩
  | cons m tl ih =>
    intro hms acc hacc hok
    rcases acc with ⟨a1, ab, amemo⟩
    have hab : b = ab := hacc.symm
    subst hab
    have hok2 : MemoOK amemo := hok
    have hm := hms m (by simp)
    have hmm := mem_available_moves.1 hm
    have hlt : countEmpty (b.set m HUMAN) < fuel := by
      have hc1 := countEmpty_set_add_one hmm.1 hmm.2
        (show HUMAN ≠ EMPTY by decide)
      have hc2 := countEmpty_pos hm
      omega
    have hspec := IH (b.set m HUMAN) amemo hlt (ValidCells_set hval (by simp)) hok2
    have hsb : (minimaxM fuel (b.set m HUMAN) AI amemo).2.1 = b.set m HUMAN :=
      minimaxM_board fuel _ AI _
    have hrev : (b.set m HUMAN).set m EMPTY = b := set_set_revert HUMAN hmm.2
    rw [List.foldl_cons, List.foldl_cons]
    have hstep :
        (let s := minimaxM fuel ((a1, b, amemo).2.1.set m HUMAN) AI
            (a1, b, amemo).2.2; (imin (a1, b, amemo).1 s.1,
            s.2.1.set m EMPTY, s.2.2)) =
        (imin a1 (minimaxSpec (b.set m HUMAN) AI), b,
          (minimaxM fuel (b.set m HUMAN) AI amemo).2.2) := by
      show (imin a1 (minimaxM fuel (b.set m HUMAN) AI amemo).1,
          (minimaxM fuel (b.set m HUMAN) AI amemo).2.1.set m EMPTY,
          (minimaxM fuel (b.set m HUMAN) AI amemo).2.2) = _
      rw [hsb, hrev, hspec.1]
    rw [hstep]
    exact ih (fun m2 h2 => hms m2 (by simp [h2]))
      (imin a1 (minimaxSpec (b.set m HUMAN) AI), b,
        (minimaxM fuel (b.set m HUMAN) AI amemo).2.2) rfl hspec.2

theorem minimaxM_spec (fuel : Nat) :
    ∀ b t memo, countEmpty b < fuel → ValidCells b → (t = AI ∨ t = HUMAN) →
      MemoOK memo →
      (minimaxM fuel b t memo).1 = minimaxSpec b t ∧
        MemoOK (minimaxM fuel b t memo).2.2 := by
  induction fuel with
  | zero =>
    intro b t memo hf
    omega
  | succ fuel ih =>
    intro b t memo hf hval ht hok
    rw [minimaxM]
    by_cases h1 : winner b = some AI
    · rw [if_pos h1]
      exact ⟨(minimaxSpec_winner_AI h1).symm, hok⟩
    · rw [if_neg h1]
      by_cases h2 : winner b = some HUMAN
      · rw [if_pos h2]
        exact ⟨(minimaxSpec_winner_HUMAN h2).symm, hok⟩
      · rw [if_neg h2]
        have hwn : winner b = none := by
          cases hw : winner b with
          | none => rfl
          | some w =>
            rcases winner_valid hval hw with rfl | rfl
            · exact absurd hw h1
            · exact absurd hw h2
        by_cases h3 : is_draw b = true
        · rw [if_pos h3]
          exact ⟨(minimaxSpec_draw hwn h3).symm, hok⟩
        · rw [if_neg h3]
          have hdf : is_draw b = false := Bool.eq_false_iff.mpr h3
          cases hfind : Memo.find? memo (encodeKey (board_key b t)) with
          | some v =>
            simp only [hfind]
            exact ⟨hok b t v hval ht hfind, hok⟩
          | none =>
            simp only [hfind]
            rcases ht with rfl | rfl
            · rw [if_pos rfl]
              obtain ⟨memo2, hfold, hok2⟩ :=
                minimaxM_fold_spec_AI fuel b hval (by omega)
                  (fun b2 memo2 hc hv ho => ih b2 HUMAN memo2 hc hv (Or.inr rfl) ho)
                  (available_moves b) (fun m hm => hm) (-10, b, memo) rfl hok
              rw [hfold]
              refine ⟨?_, ?_⟩
              · show (available_moves b).foldl
                    (fun a m => imax a (minimaxSpec (b.set m AI) HUMAN)) (-10)
                    = minimaxSpec b AI
                rw [minimaxSpec_unfold_AI hwn hdf]
              · show MemoOK (memo2.insert (encodeKey (board_key b AI)) _)
                have hv : (available_moves b).foldl
                    (fun a m => imax a (minimaxSpec (b.set m AI) HUMAN)) (-10)
                    = minimaxSpec b AI := (minimaxSpec_unfold_AI hwn hdf).symm
                rw [hv]
                exact MemoOK_insert hok2 hval (Or.inl rfl)
            · rw [if_neg (by decide)]
              obtain ⟨memo2, hfold, hok2⟩ :=
                minimaxM_fold_spec_HUMAN fuel b hval (by omega)
                  (fun b2 memo2 hc hv ho => ih b2 AI memo2 hc hv (Or.inl rfl) ho)
                  (available_moves b) (fun m hm => hm) (10, b, memo) rfl hok
              rw [hfold]
              refine ⟨?_, ?_⟩
              · show (available_moves b).foldl
                    (fun a m => imin a (minimaxSpec (b.set m HUMAN) AI)) 10
                    = minimaxSpec b HUMAN
                rw [minimaxSpec_unfold_other hwn hdf (by decide)]
              · show MemoOK (memo2.insert (encodeKey (board_key b HUMAN)) _)
                have hv : (available_moves b).foldl
                    (fun a m => imin a (minimaxSpec (b.set m HUMAN) AI)) 10
                    = minimaxSpec b HUMAN :=
                  (minimaxSpec_unfold_other hwn hdf (by decide)).symm
                rw [hv]
                exact MemoOK_insert hok2 hval (Or.inr rfl)

theorem minimax_spec (b : Board) (t : Char) (memo : Memo) (hval : ValidCells b)
    (ht : t = AI ∨ t = HUMAN) (hok : MemoOK memo) :
    (minimax b t memo).1 = minimaxSpec b t ∧ MemoOK (minimax b t memo).2.2 :=
  minimaxM_spec (b.length + 1) b t memo
    (by have := countEmpty_le_length b; omega) hval ht hok

/-! The move loop of best_ai_move. -/

theorem best_ai_moveGo_cons (m : Nat) (tl : List Nat) (bs bm : Int) (b : Board)
    (memo : Memo) :
    best_ai_moveGo (m :: tl) bs bm b memo =
      if winner (b.set m AI) = some AI then
        (Int.ofNat m, (b.set m AI).set m EMPTY)
      else
        if bs < (minimax (winning_movesM (b.set m AI) HUMAN).2 HUMAN memo).1 then
          best_ai_moveGo tl
            (minimax (winning_movesM (b.set m AI) HUMAN).2 HUMAN memo).1
            (Int.ofNat m)
            ((minimax (winning_movesM (b.set m AI) HUMAN).2 HUMAN memo).2.1.set
              m EMPTY)
            (minimax (winning_movesM (b.set m AI) HUMAN).2 HUMAN memo).2.2
        else
          best_ai_moveGo tl bs bm
            ((minimax (winning_movesM (b.set m AI) HUMAN).2 HUMAN memo).2.1.set
              m EMPTY)
            (minimax (winning_movesM (b.set m AI) HUMAN).2 HUMAN memo).2.2 := rfl

theorem best_ai_moveGo_cons_clean (m : Nat) (tl : List Nat) (bs bm : Int)
    (b : Board) (memo : Memo) (hme : b.getD m EMPTY = EMPTY) :
    best_ai_moveGo (m :: tl) bs bm b memo =
      if winner (b.set m AI) = some AI then (Int.ofNat m, b)
      else
        if bs < (minimax (b.set m AI) HUMAN memo).1 then
          best_ai_moveGo tl (minimax (b.set m AI) HUMAN memo).1 (Int.ofNat m) b
            (minimax (b.set m AI) HUMAN memo).2.2
        else
          best_ai_moveGo tl bs bm b (minimax (b.set m AI) HUMAN memo).2.2 := by
  rw [best_ai_moveGo_cons, winning_movesM_board, minimax_board,
    set_set_revert AI hme]

theorem best_ai_moveGo_early (b : Board) :
    ∀ (ms : List Nat), (∀ m ∈ ms, b.getD m EMPTY = EMPTY) →
    ∀ (m0 : Nat) (rest : List Nat) (bs bm : Int) (memo : Memo),
      ms.filter (fun m => decide (winner (b.set m AI) = some AI)) = m0 :: rest →
      (best_ai_moveGo ms bs bm b memo).1 = Int.ofNat m0 := by
  intro ms
  induction ms with
  | nil =>
    intro _ m0 rest bs bm memo h
    simp at h
  | cons m tl ih =>
    intro hms m0 rest bs bm memo h
    rw [List.filter_cons] at h
    rw [best_ai_moveGo_cons_clean m tl bs bm b memo (hms m (by simp))]
    by_cases hw : winner (b.set m AI) = some AI
    · rw [if_pos hw]
      rw [if_pos (by simpa using hw)] at h
      injection h with h1 h2
      show Int.ofNat m = Int.ofNat m0
      rw [h1]
    · rw [if_neg hw]
      rw [if_neg (by simpa using hw)] at h
      have hms2 : ∀ m2 ∈ tl, b.getD m2 EMPTY = EMPTY :=
        fun m2 h2 => hms m2 (by simp [h2])
      by_cases hlt : bs < (minimax (b.set m AI) HUMAN memo).1
      · rw [if_pos hlt]
        exact ih hms2 m0 rest _ _ _ h
      · rw [if_neg hlt]
        exact ih hms2 m0 rest _ _ _ h

theorem best_ai_moveGo_mem (b : Board) :
    ∀ (ms : List Nat), (∀ m ∈ ms, b.getD m EMPTY = EMPTY) →
    ∀ (bs bm : Int) (memo : Memo),
      (best_ai_moveGo ms bs bm b memo).1 = bm ∨
        ∃ m ∈ ms, (best_ai_moveGo ms bs bm b memo).1 = Int.ofNat m := by
  intro ms
  induction ms with
  | nil =>
    intro _ bs bm memo
    exact Or.inl rfl
  | cons m tl ih =>
    intro hms bs bm memo
    rw [best_ai_moveGo_cons_clean m tl bs bm b memo (hms m (by simp))]
    have hms2 : ∀ m2 ∈ tl, b.getD m2 EMPTY = EMPTY :=
      fun m2 h2 => hms m2 (by simp [h2])
    by_cases hw : winner (b.set m AI) = some AI
    · rw [if_pos hw]
      exact Or.inr ⟨m, by simp, rfl⟩
    · rw [if_neg hw]
      by_cases hlt : bs < (minimax (b.set m AI) HUMAN memo).1
      · rw [if_pos hlt]
        rcases ih hms2 (minimax (b.set m AI) HUMAN memo).1 (Int.ofNat m)
            (minimax (b.set m AI) HUMAN memo).2.2 with he | ⟨m2, hm2, he⟩
        · exact Or.inr ⟨m, by simp, he⟩
        · exact Or.inr ⟨m2, by simp [hm2], he⟩
      · rw [if_neg hlt]
        rcases ih hms2 bs bm (minimax (b.set m AI) HUMAN memo).2.2 with
          he | ⟨m2, hm2, he⟩
        · exact Or.inl he
        · exact Or.inr ⟨m2, by simp [hm2], he⟩

theorem best_ai_moveGo_pickBest {b : Board} (hval : ValidCells b) :
    ∀ ms : List Nat, (∀ m ∈ ms, m ∈ available_moves b) →
      (∀ m ∈ ms, winner (b.set m AI) ≠ some AI) →
    ∀ (bs bm : Int) (memo : Memo), MemoOK memo →
      (best_ai_moveGo ms bs bm b memo).1 =
        pickBest (fun m => minimaxSpec (b.set m AI) HUMAN) ms bs bm := by
  intro ms
  induction ms with
  | nil =>
    intro _ _ bs bm memo _
    rfl
  | cons m tl ih =>
    intro hms hnw bs bm memo hok
    have hm := hms m (by simp)
    have hmm := mem_available_moves.1 hm
    rw [best_ai_moveGo_cons_clean m tl bs bm b memo hmm.2, pickBest]
    rw [if_neg (hnw m (by simp))]
    have hsp := minimax_spec (b.set m AI) HUMAN memo
      (ValidCells_set hval (Or.inr (Or.inl rfl))) (Or.inr rfl) hok
    have hms2 : ∀ m2 ∈ tl, m2 ∈ available_moves b :=
      fun m2 h2 => hms m2 (by simp [h2])
    have hnw2 : ∀ m2 ∈ tl, winner (b.set m2 AI) ≠ some AI :=
      fun m2 h2 => hnw m2 (by simp [h2])
    rw [hsp.1]
    by_cases hlt : bs < minimaxSpec (b.set m AI) HUMAN
    · rw [if_pos hlt, if_pos hlt]
      exact ih hms2 hnw2 _ _ _ hsp.2
    · rw [if_neg hlt, if_neg hlt]
      exact ih hms2 hnw2 _ _ _ hsp.2

theorem best_ai_move_go_form (b : Board) :
    best_ai_move b =
      (best_ai_moveGo (available_moves b) (-10) (-1) b Memo.leaf).1 := by
  show (best_ai_moveGo (available_moves (winning_movesM b HUMAN).2) (-10) (-1)
      (winning_movesM b HUMAN).2 Memo.leaf).1 = _
  rw [winning_movesM_board]

theorem best_ai_move_mem {b : Board} (hval : ValidCells b)
    (hne : available_moves b ≠ []) :
    ∃ m ∈ available_moves b, best_ai_move b = Int.ofNat m := by
  rw [best_ai_move_go_form]
  cases heq : available_moves b with
  | nil => exact absurd heq hne
  | cons m tl =>
    have hmem : m ∈ available_moves b := by
      rw [heq]
      exact List.mem_cons_self m tl
    have hmm := mem_available_moves.1 hmem
    have htl : ∀ m2 ∈ tl, b.getD m2 EMPTY = EMPTY := by
      intro m2 h2
      have hm2 : m2 ∈ available_moves b := by
        rw [heq]
        exact List.mem_cons_of_mem m h2
      exact (mem_available_moves.1 hm2).2
    rw [best_ai_moveGo_cons_clean m tl (-10) (-1) b Memo.leaf hmm.2]
    by_cases hw : winner (b.set m AI) = some AI
    · rw [if_pos hw]
      exact ⟨m, List.mem_cons_self m tl, rfl⟩
    · rw [if_neg hw]
      have hsp := minimax_spec (b.set m AI) HUMAN Memo.leaf
        (ValidCells_set hval (Or.inr (Or.inl rfl))) (Or.inr rfl) MemoOK_leaf
      have hrange := minimaxSpec_range (b := b.set m AI) (t := HUMAN)
        (ValidCells_set hval (Or.inr (Or.inl rfl)))
      have hlt : (-10 : Int) < (minimax (b.set m AI) HUMAN Memo.leaf).1 := by
        rw [hsp.1]
        omega
      rw [if_pos hlt]
      rcases best_ai_moveGo_mem b tl htl
          (minimax (b.set m AI) HUMAN Memo.leaf).1 (Int.ofNat m)
          (minimax (b.set m AI) HUMAN Memo.leaf).2.2 with he | ⟨m2, hm2, he⟩
      · exact ⟨m, List.mem_cons_self m tl, he⟩
      · exact ⟨m2, List.mem_cons_of_mem m hm2, he⟩

/-! The tie-break fold. -/

theorem pickBest_all_le (score : Nat → Int) :
    ∀ (ms : List Nat) (bs bm : Int), (∀ m ∈ ms, score m ≤ bs) →
      pickBest score ms bs bm = bm := by
  intro ms
  induction ms with
  | nil => intro bs bm _; rfl
  | cons m tl ih =>
    intro bs bm h
    rw [pickBest, if_neg (by have := h m (by simp); omega)]
    exact ih bs bm fun m2 h2 => h m2 (by simp [h2])

theorem pickBest_argmax (score : Nat → Int) :
    ∀ (ms : List Nat) (bs bm : Int), ms.Pairwise (· < ·) →
      (∃ m ∈ ms, bs < score m) →
      ∃ m0 ∈ ms, pickBest score ms bs bm = Int.ofNat m0 ∧ bs < score m0 ∧
        (∀ m ∈ ms, score m ≤ score m0) ∧
        (∀ m ∈ ms, score m = score m0 → m0 ≤ m) := by
  intro ms
  induction ms with
  | nil =>
    intro bs bm _ h
    simp at h
  | cons m tl ih =>
    intro bs bm hp hex
    have hptl := (List.pairwise_cons.1 hp).2
    have hhd := (List.pairwise_cons.1 hp).1
    rw [pickBest]
    by_cases hlt : bs < score m
    · rw [if_pos hlt]
      by_cases hex2 : ∃ m2 ∈ tl, score m < score m2
      · rcases ih (score m) (Int.ofNat m) hptl hex2 with
          ⟨m0, hm0, hpick, hgt, hle, htie⟩
        refine ⟨m0, by simp [hm0], hpick, by omega, ?_, ?_⟩
        · intro m2 hm2
          rcases List.mem_cons.1 hm2 with rfl | hm2
          · omega
          · exact hle m2 hm2
        · intro m2 hm2 he
          rcases List.mem_cons.1 hm2 with rfl | hm2
          · omega
          · exact htie m2 hm2 he
      · push_neg at hex2
        have hpk := pickBest_all_le score tl (score m) (Int.ofNat m) hex2
        refine ⟨m, by simp, hpk, hlt, ?_, ?_⟩
        · intro m2 hm2
          rcases List.mem_cons.1 hm2 with rfl | hm2
          · exact le_refl _
          · exact hex2 m2 hm2
        · intro m2 hm2 _
          rcases List.mem_cons.1 hm2 with rfl | hm2
          · exact le_refl _
          · exact le_of_lt (hhd m2 hm2)
    · rw [if_neg hlt]
      have hex2 : ∃ m2 ∈ tl, bs < score m2 := by
        rcases hex with ⟨m2, hm2, hgt⟩
        rcases List.mem_cons.1 hm2 with rfl | hm2
        · omega
        · exact ⟨m2, hm2, hgt⟩
      rcases ih bs bm hptl hex2 with ⟨m0, hm0, hpick, hgt, hle, htie⟩
      refine ⟨m0, by simp [hm0], hpick, hgt, ?_, ?_⟩
      · intro m2 hm2
        rcases List.mem_cons.1 hm2 with rfl | hm2
        · omega
        · exact hle m2 hm2
      · intro m2 hm2 he
        rcases List.mem_cons.1 hm2 with rfl | hm2
        · omega
        · exact htie m2 hm2 he

/-! Helper lemmas for the move selector interface. -/

theorem choose_ai_move_eq (b : Board) (d : String) (u : ℚ) (pick : Nat) :
    choose_ai_move b d u pick =
      if d = "hard" then some (best_ai_move b)
      else if (available_moves b).length = 1 then some (best_ai_move b)
      else if u < (if d = "medium" then (7 : ℚ)/10 else 35/100) then
        some (best_ai_move b)
      else
        random_choice (((available_moves b).map Int.ofNat).filter fun m =>
          decide (m ≠ best_ai_move b)) pick := rfl

theorem random_choice_mem {l : List Int} (hl : l ≠ []) (pick : Nat) :
    ∃ x, random_choice l pick = some x ∧ x ∈ l := by
  have hlen : 0 < l.length := List.length_pos.2 hl
  have hmod : pick % l.length < l.length := Nat.mod_lt _ hlen
  refine ⟨l.get ⟨pick % l.length, hmod⟩, ?_, List.get_mem l (pick % l.length) hmod⟩
  unfold random_choice
  exact List.get?_eq_get hmod

theorem other_moves_ne_nil {b : Board} (h2 : 2 ≤ (available_moves b).length)
    (best : Int) :
    ((available_moves b).map Int.ofNat).filter
      (fun m => decide (m ≠ best)) ≠ [] := by
  have hp := available_moves_pairwise b
  rcases heq : available_moves b with _ | ⟨m1, ms⟩
  · rw [heq] at h2; simp at h2
  · rcases ms with _ | ⟨m2, rest⟩
    · rw [heq] at h2; simp at h2
    · rw [heq] at hp
      have hlt : m1 < m2 := (List.pairwise_cons.1 hp).1 m2 (by simp)
      by_cases hb1 : Int.ofNat m1 = best
      · apply List.ne_nil_of_mem (a := Int.ofNat m2)
        rw [List.mem_filter]
        refine ⟨List.mem_map_of_mem Int.ofNat (by simp [heq]), ?_⟩
        simp only [decide_eq_true_eq]
        rw [← hb1]
        intro hc
        have : m2 = m1 := Int.ofNat.inj hc
        omega
      · apply List.ne_nil_of_mem (a := Int.ofNat m1)
        rw [List.mem_filter]
        refine ⟨List.mem_map_of_mem Int.ofNat (by simp [heq]), ?_⟩
        simp only [decide_eq_true_eq]
        exact hb1

theorem avail_len_ge_two {b : Board} (hne : available_moves b ≠ [])
    (hlen1 : (available_moves b).length ≠ 1) :
    2 ≤ (available_moves b).length := by
  rcases heq : available_moves b with _ | ⟨m1, ms⟩
  · exact absurd heq hne
  · rcases ms with _ | ⟨m2, rest⟩
    · rw [heq] at hlen1; simp at hlen1
    · simp

/-! Perfect play: value preservation along optimal moves. -/

theorem is_draw_false_of_avail {b : Board} (hne : available_moves b ≠ []) :
    is_draw b = false := by
  rcases List.exists_mem_of_ne_nil _ hne with ⟨m, hm⟩
  have hmm := mem_available_moves.1 hm
  unfold is_draw
  have : (b.all fun x => decide (x ≠ EMPTY)) = false := by
    rw [List.all_eq_false]
    refine ⟨EMPTY, ?_, by simp⟩
    rw [List.getD_eq_getElem b EMPTY hmm.1] at hmm
    rw [← hmm.2]
    exact List.getElem_mem hmm.1
  rw [this]
  rw [Bool.and_false]

theorem exists_min_score (f : Nat → Int) :
    ∀ l : List Nat, l ≠ [] → ∃ m ∈ l, ∀ m2 ∈ l, f m ≤ f m2 := by
  intro l
  induction l with
  | nil => intro h; exact absurd rfl h
  | cons m tl ih =>
    intro _
    rcases htl : tl with _ | ⟨m2, rest⟩
    · exact ⟨m, by simp, by simp⟩
    · rw [← htl]
      have htlne : tl ≠ [] := by rw [htl]; simp
      rcases ih htlne with ⟨m1, hm1, hmin⟩
      by_cases hle : f m ≤ f m1
      · refine ⟨m, by simp, ?_⟩
        intro m3 hm3
        rcases List.mem_cons.1 hm3 with rfl | hm3
        · exact le_refl _
        · exact le_trans hle (hmin m3 hm3)
      · refine ⟨m1, by simp [hm1], ?_⟩
        intro m3 hm3
        rcases List.mem_cons.1 hm3 with rfl | hm3
        · omega
        · exact hmin m3 hm3

theorem ai_step_value {b : Board} (hval : ValidCells b)
    (hwn : winner b = none) (hd : is_draw b = false)
    (hv : minimaxSpec b AI = 0) {m : Nat} (hm : m ∈ available_moves b)
    (hbest : Int.ofNat m = best_ai_move b) :
    minimaxSpec (b.set m AI) HUMAN = 0 := by
  have hunf := minimaxSpec_unfold_AI hwn hd
  have hchild_le : ∀ m2 ∈ available_moves b,
      minimaxSpec (b.set m2 AI) HUMAN ≤ 0 := by
    intro m2 hm2
    have hle := foldl_imax_elem_le (available_moves b)
      (fun m3 => minimaxSpec (b.set m3 AI) HUMAN) (-10) hm2
    rw [← hunf, hv] at hle
    exact hle
  by_cases hex : ∃ m2 ∈ available_moves b, winner (b.set m2 AI) = some AI
  · exfalso
    rcases hex with ⟨m2, hm2, hwin⟩
    have h1 : minimaxSpec (b.set m2 AI) HUMAN = 1 := minimaxSpec_winner_AI hwin
    have := hchild_le m2 hm2
    omega
  · push_neg at hex
    have hgo : best_ai_move b =
        pickBest (fun m2 => minimaxSpec (b.set m2 AI) HUMAN)
          (available_moves b) (-10) (-1) := by
      rw [best_ai_move_go_form]
      exact best_ai_moveGo_pickBest hval (available_moves b)
        (fun x hx => hx) hex (-10) (-1) Memo.leaf MemoOK_leaf
    have hexgt : ∃ m2 ∈ available_moves b,
        (-10 : Int) < minimaxSpec (b.set m2 AI) HUMAN := by
      refine ⟨m, hm, ?_⟩
      have := (minimaxSpec_range (b := b.set m AI) (t := HUMAN)
        (ValidCells_set hval (Or.inr (Or.inl rfl)))).1
      omega
    rcases pickBest_argmax _ (available_moves b) (-10) (-1)
        (available_moves_pairwise b) hexgt with ⟨m0, hm0, hpick, _, hle, _⟩
    have heq : Int.ofNat m = Int.ofNat m0 := by rw [hbest, hgo, hpick]
    have hmm0 : m = m0 := Int.ofNat.inj heq
    subst hmm0
    have hle0 := hchild_le m hm0
    rcases foldl_imax_init_or_elem (available_moves b)
        (fun m3 => minimaxSpec (b.set m3 AI) HUMAN) (-10) with he | ⟨m1, hm1, he⟩
    · rw [← hunf, hv] at he
      omega
    · have h1 : minimaxSpec (b.set m1 AI) HUMAN = 0 := by
        rw [← he, ← hunf, hv]
      have := hle m1 hm1
      rw [h1] at this
      omega

theorem human_step_value {b : Board} (hval : ValidCells b)
    (hwn : winner b = none) (hd : is_draw b = false)
    (hv : minimaxSpec b HUMAN = 0) {m : Nat} (hopt : OptimalHuman b m) :
    minimaxSpec (b.set m HUMAN) AI = 0 := by
  have hunf := minimaxSpec_unfold_other hwn hd (t := HUMAN) (by decide)
  rcases hopt with ⟨hm, hmin⟩
  have hge : (0 : Int) ≤ minimaxSpec (b.set m HUMAN) AI := by
    have hle := foldl_imin_le_elem (available_moves b)
      (fun m3 => minimaxSpec (b.set m3 HUMAN) AI) 10 hm
    rw [← hunf, hv] at hle
    exact hle
  rcases foldl_imin_init_or_elem (available_moves b)
      (fun m3 => minimaxSpec (b.set m3 HUMAN) AI) 10 with he | ⟨m1, hm1, he⟩
  · rw [← hunf, hv] at he
    omega
  · have h1 : minimaxSpec (b.set m1 HUMAN) AI = 0 := by
      rw [← he, ← hunf, hv]
    have := hmin m1 hm1
    rw [h1] at this
    omega

theorem step_preserves {s s2 : Board × Char} (hval : ValidCells s.1)
    (ht : s.2 = AI ∨ s.2 = HUMAN) (hv : minimaxSpec s.1 s.2 = 0)
    (hstep : Step s s2) :
    ValidCells s2.1 ∧ (s2.2 = AI ∨ s2.2 = HUMAN) ∧
      minimaxSpec s2.1 s2.2 = 0 ∧ countEmpty s2.1 < countEmpty s.1 := by
  rcases hstep with ⟨hnt, hcase⟩
  have hwn : winner s.1 = none := by
    cases hw : winner s.1 with
    | none => rfl
    | some w =>
      exfalso
      exact hnt (Or.inl (by rw [hw]; simp))
  have hne : available_moves s.1 ≠ [] := by
    intro hnil
    exact hnt (Or.inr hnil)
  have hdf : is_draw s.1 = false := is_draw_false_of_avail hne
  rcases hcase with ⟨hta, htb, m, hm, hbest, hb2⟩ | ⟨hta, htb, m, hopt, hb2⟩
  · have hmm := mem_available_moves.1 hm
    have hdec := countEmpty_set_add_one hmm.1 hmm.2 (show AI ≠ EMPTY by decide)
    have hcp := countEmpty_pos hm
    refine ⟨?_, Or.inr htb, ?_, ?_⟩
    · rw [hb2]
      exact ValidCells_set hval (Or.inr (Or.inl rfl))
    · rw [hb2, htb]
      exact ai_step_value hval hwn hdf (by rw [← hta]; exact hv) hm hbest
    · rw [hb2]
      omega
  · have hmm := mem_available_moves.1 hopt.1
    have hdec := countEmpty_set_add_one hmm.1 hmm.2
      (show HUMAN ≠ EMPTY by decide)
    have hcp := countEmpty_pos hopt.1
    refine ⟨?_, Or.inl htb, ?_, ?_⟩
    · rw [hb2]
      exact ValidCells_set hval (Or.inr (Or.inr rfl))
    · rw [hb2, htb]
      exact human_step_value hval hwn hdf (by rw [← hta]; exact hv) hopt
    · rw [hb2]
      omega

theorem reach_invariant {t0 : Char} {s : Board × Char}
    (ht0 : t0 = AI ∨ t0 = HUMAN)
    (h : Relation.ReflTransGen Step (emptyBoard, t0) s) :
    ValidCells s.1 ∧ (s.2 = AI ∨ s.2 = HUMAN) ∧ minimaxSpec s.1 s.2 = 0 := by
  induction h with
  | refl =>
    refine ⟨emptyBoard_valid, ht0, ?_⟩
    rcases ht0 with rfl | rfl
    · exact spec_empty_AI
    · exact spec_empty_HUMAN
  | tail hr hstep ih =>
    rcases ih with ⟨hval, ht, hv⟩
    have := step_preserves hval ht hv hstep
    exact ⟨this.1, this.2.1, this.2.2.1⟩

theorem terminal_is_draw {s : Board × Char} (hval : ValidCells s.1)
    (hv : minimaxSpec s.1 s.2 = 0) (hterm : IsTerminal s.1) :
    winner s.1 = none ∧ available_moves s.1 = [] := by
  have hwn : winner s.1 = none := by
    cases hw : winner s.1 with
    | none => rfl
    | some w =>
      exfalso
      rcases winner_valid hval hw with rfl | rfl
      · rw [minimaxSpec_winner_AI hw] at hv
        exact absurd hv (by norm_num)
      · rw [minimaxSpec_winner_HUMAN hw] at hv
        exact absurd hv (by norm_num)
  refine ⟨hwn, ?_⟩
  rcases hterm with hterm | hterm
  · exact absurd hwn hterm
  · exact hterm

theorem step_exists {s : Board × Char} (hval : ValidCells s.1)
    (ht : s.2 = AI ∨ s.2 = HUMAN) (hnt : ¬IsTerminal s.1) :
    ∃ s2, Step s s2 := by
  have hne : available_moves s.1 ≠ [] := by
    intro hnil
    exact hnt (Or.inr hnil)
  rcases ht with hta | hta
  · rcases best_ai_move_mem hval hne with ⟨m, hm, hbest⟩
    exact ⟨(s.1.set m AI, HUMAN), hnt,
      Or.inl ⟨hta, rfl, m, hm, hbest.symm, rfl⟩⟩
  · rcases exists_min_score (fun m => minimaxSpec (s.1.set m HUMAN) AI)
        (available_moves s.1) hne with ⟨m, hm, hmin⟩
    exact ⟨(s.1.set m HUMAN, AI), hnt,
      Or.inr ⟨hta, rfl, m, ⟨hm, hmin⟩, rfl⟩⟩

theorem reach_terminal_aux :
    ∀ (n : Nat) (s : Board × Char), countEmpty s.1 ≤ n → ValidCells s.1 →
      (s.2 = AI ∨ s.2 = HUMAN) → minimaxSpec s.1 s.2 = 0 →
      ∃ sT, Relation.ReflTransGen Step s sT ∧ IsTerminal sT.1 ∧
        winner sT.1 = none ∧ available_moves sT.1 = [] := by
  intro n
  induction n with
  | zero =>
    intro s hc hval ht hv
    have hterm : IsTerminal s.1 := by
      by_contra hnt
      have hne : available_moves s.1 ≠ [] := fun hnil => hnt (Or.inr hnil)
      rcases List.exists_mem_of_ne_nil _ hne with ⟨m, hm⟩
      have := countEmpty_pos hm
      omega
    rcases terminal_is_draw hval hv hterm with ⟨hwn, hav⟩
    exact ⟨s, Relation.ReflTransGen.refl, hterm, hwn, hav⟩
  | succ n ih =>
    intro s hc hval ht hv
    by_cases hterm : IsTerminal s.1
    · rcases terminal_is_draw hval hv hterm with ⟨hwn, hav⟩
      exact ⟨s, Relation.ReflTransGen.refl, hterm, hwn, hav⟩
    · rcases step_exists hval ht hterm with ⟨s2, hstep⟩
      rcases step_preserves hval ht hv hstep with ⟨hval2, ht2, hv2, hdec⟩
      rcases ih s2 (by omega) hval2 ht2 hv2 with ⟨sT, hreach, hT, hwn, hav⟩
      exact ⟨sT, Relation.ReflTransGen.head hstep hreach, hT, hwn, hav⟩

theorem best_ai_move_empty : best_ai_move emptyBoard = 0 := by
  have hval := emptyBoard_valid
  have hnw : ∀ m ∈ available_moves emptyBoard,
      winner (emptyBoard.set m AI) ≠ some AI := by decide
  have hgo : best_ai_move emptyBoard =
      pickBest (fun m2 => minimaxSpec (emptyBoard.set m2 AI) HUMAN)
        (available_moves emptyBoard) (-10) (-1) := by
    rw [best_ai_move_go_form]
    exact best_ai_moveGo_pickBest hval (available_moves emptyBoard)
      (fun x hx => hx) hnw (-10) (-1) Memo.leaf MemoOK_leaf
  have h0 : (0 : Nat) ∈ available_moves emptyBoard := by decide
  have hexgt : ∃ m ∈ available_moves emptyBoard,
      (-10 : Int) < minimaxSpec (emptyBoard.set m AI) HUMAN := by
    refine ⟨0, h0, ?_⟩
    rw [childSpec_zero 0 h0]
    norm_num
  rcases pickBest_argmax _ (available_moves emptyBoard) (-10) (-1)
      (available_moves_pairwise emptyBoard) hexgt with
    ⟨m0, hm0, hpick, _, _, htie⟩
  have hle0 : m0 ≤ 0 := htie 0 h0 (by rw [childSpec_zero 0 h0, childSpec_zero m0 hm0])
  have hm00 : m0 = 0 := by omega
  rw [hgo, hpick, hm00]
  rfl

/-! The claims. -/

/-- C1: Perfect play is a forced draw.  From the empty 9-cell board, with the
AI playing `best_ai_move` and the HUMAN playing any minimax-optimal move, any
reachable terminal state has no winner and no empty cell, any reachable
non-terminal state has a continuation, and every reachable state extends to a
terminal drawn state; so the game always terminates in a draw. -/
theorem claim1_perfect_play_forced_draw (t0 : Char) (ht0 : t0 = AI ∨ t0 = HUMAN)
    (s : Board × Char)
    (h : Relation.ReflTransGen Step (emptyBoard, t0) s) :
    (IsTerminal s.1 → winner s.1 = none ∧ available_moves s.1 = []) ∧
    (¬IsTerminal s.1 → ∃ s2, Step s s2) ∧
    (∃ sT, Relation.ReflTransGen Step s sT ∧ IsTerminal sT.1 ∧
      winner sT.1 = none ∧ available_moves sT.1 = []) := by
  rcases reach_invariant ht0 h with ⟨hval, ht, hv⟩
  refine ⟨?_, ?_, ?_⟩
  · intro hterm
    exact terminal_is_draw hval hv hterm
  · intro hnt
    exact step_exists hval ht hnt
  · exact reach_terminal_aux (countEmpty s.1) s (le_refl _) hval ht hv

theorem claim1_witness :
    ∃ sT, Relation.ReflTransGen Step (emptyBoard, AI) sT ∧ IsTerminal sT.1 ∧
      winner sT.1 = none ∧ available_moves sT.1 = [] :=
  (claim1_perfect_play_forced_draw AI (Or.inl rfl) (emptyBoard, AI)
    Relation.ReflTransGen.refl).2.2

/-- C2: Memoization soundness.  A minimax call on a fresh memo returns the
reference (memo-free) minimax score, and the cache key `board_key` determines
the board and the turn, so distinct positions never share a memo entry while
equal positions share theirs. -/
theorem claim2_memoization_soundness (b : Board) (t : Char)
    (hval : ValidCells b) (ht : t = AI ∨ t = HUMAN) :
    (minimax b t Memo.leaf).1 = minimaxSpec b t ∧
    (∀ b2 t2 b3 t3, board_key b2 t2 = board_key b3 t3 → b2 = b3 ∧ t2 = t3) ∧
    (∀ b2 t2 b3 t3, ValidCells b2 → ValidCells b3 → (t2 = AI ∨ t2 = HUMAN) →
      (t3 = AI ∨ t3 = HUMAN) →
      encodeKey (board_key b2 t2) = encodeKey (board_key b3 t3) →
      b2 = b3 ∧ t2 = t3) := by
  refine ⟨(minimax_spec b t Memo.leaf hval ht MemoOK_leaf).1, ?_, ?_⟩
  · intro b2 t2 b3 t3 h
    exact board_key_inj h
  · intro b2 t2 b3 t3 hv2 hv3 ht2 ht3 he
    exact board_key_inj
      (encodeKey_inj (board_key_valid hv2 ht2) (board_key_valid hv3 ht3) he)

theorem claim2_witness :
    (minimax demoBoard AI Memo.leaf).1 = minimaxSpec demoBoard AI :=
  (claim2_memoization_soundness demoBoard AI (by decide) (Or.inl rfl)).1

/-- C3: Terminal-state evaluation.  A board with a completed line has a
winner occupying a completed line; minimax returns +1 for an AI win and -1
for a HUMAN win immediately, leaving board and memo untouched; and a full
board without a winner evaluates to 0. -/
theorem claim3_terminal_evaluation (b : Board) (t : Char) (memo : Memo) :
    ((∃ l ∈ WIN_LINES, b.getD l.1 EMPTY ≠ EMPTY ∧
        b.getD l.1 EMPTY = b.getD l.2.1 EMPTY ∧
        b.getD l.2.1 EMPTY = b.getD l.2.2 EMPTY) →
      ∃ w, winner b = some w ∧ w ≠ EMPTY ∧
        ∃ l ∈ WIN_LINES, b.getD l.1 EMPTY = w ∧ b.getD l.2.1 EMPTY = w ∧
          b.getD l.2.2 EMPTY = w) ∧
    (winner b = some AI → minimax b t memo = (1, b, memo)) ∧
    (winner b = some HUMAN → minimax b t memo = (-1, b, memo)) ∧
    (winner b = none → (∀ c ∈ b, c ≠ EMPTY) →
      minimax b t memo = (0, b, memo)) := by
  refine ⟨?_, ?_, ?_, ?_⟩
  · intro ⟨l, hl, hne, h12, h23⟩
    rcases winner_of_line hl hne h12 h23 with ⟨w, hw⟩
    rcases winner_some_spec hw with ⟨l2, hl2, _, h122, h232, hweq⟩
    refine ⟨w, hw, winner_ne_empty hw, l2, hl2, hweq.symm, ?_, ?_⟩
    · rw [← h122]
      exact hweq.symm
    · rw [← h232, ← h122]
      exact hweq.symm
  · intro h
    unfold minimax
    rw [minimaxM, if_pos h]
  · intro h
    unfold minimax
    rw [minimaxM, if_neg (by rw [h]; decide), if_pos h]
  · intro hwn hall
    unfold minimax
    have hdr : is_draw b = true := by
      unfold is_draw
      rw [hwn]
      simp only [Option.isNone_none, Bool.true_and]
      rw [List.all_eq_true]
      intro x hx
      simp only [decide_eq_true_eq]
      exact hall x hx
    rw [minimaxM, if_neg (by rw [hwn]; decide), if_neg (by rw [hwn]; decide),
      if_pos hdr]

theorem claim3_witness :
    minimax [AI, AI, AI, HUMAN, HUMAN, EMPTY, EMPTY, EMPTY, EMPTY] HUMAN
        Memo.leaf =
      (1, [AI, AI, AI, HUMAN, HUMAN, EMPTY, EMPTY, EMPTY, EMPTY],
        Memo.leaf) :=
  (claim3_terminal_evaluation
    [AI, AI, AI, HUMAN, HUMAN, EMPTY, EMPTY, EMPTY, EMPTY] HUMAN
    Memo.leaf).2.1 (by decide)

/-- C4: Move/revert symmetry and purity.  Every call of minimax,
winning_moves and best_ai_move returns the board it was given (every
hypothetical placement is reverted, also on the immediate-win early return),
and re-evaluating minimax on the post-call board with a fresh memo gives the
same score. -/
theorem claim4_move_revert_purity (b : Board) (t : Char) (memo : Memo)
    (p : Char) :
    (minimax b t memo).2.1 = b ∧
    (minimax (minimax b t Memo.leaf).2.1 t Memo.leaf).1 =
      (minimax b t Memo.leaf).1 ∧
    (winning_movesM b p).2 = b ∧
    (best_ai_moveM b).2 = b := by
  refine ⟨minimax_board b t memo, ?_, winning_movesM_board b p,
    best_ai_moveM_board b⟩
  rw [minimax_board b t Memo.leaf]

/-- C5: Tie-break determinism.  When no move wins immediately, best_ai_move
returns the lowest-index move among those achieving the maximal minimax
score (first strict improvement wins), and on the empty board it returns
index 0. -/
theorem claim5_tie_break_lowest_index (b : Board) (hval : ValidCells b)
    (hne : available_moves b ≠ [])
    (hnw : ∀ m ∈ available_moves b, winner (b.set m AI) ≠ some AI) :
    (∃ m0 ∈ available_moves b, best_ai_move b = Int.ofNat m0 ∧
      (∀ m ∈ available_moves b,
        minimaxSpec (b.set m AI) HUMAN ≤ minimaxSpec (b.set m0 AI) HUMAN) ∧
      (∀ m ∈ available_moves b,
        minimaxSpec (b.set m AI) HUMAN = minimaxSpec (b.set m0 AI) HUMAN →
          m0 ≤ m)) ∧
    best_ai_move emptyBoard = 0 := by
  refine ⟨?_, best_ai_move_empty⟩
  have hgo : best_ai_move b =
      pickBest (fun m2 => minimaxSpec (b.set m2 AI) HUMAN)
        (available_moves b) (-10) (-1) := by
    rw [best_ai_move_go_form]
    exact best_ai_moveGo_pickBest hval (available_moves b)
      (fun x hx => hx) hnw (-10) (-1) Memo.leaf MemoOK_leaf
  rcases List.exists_mem_of_ne_nil _ hne with ⟨m1, hm1⟩
  have hexgt : ∃ m ∈ available_moves b,
      (-10 : Int) < minimaxSpec (b.set m AI) HUMAN := by
    refine ⟨m1, hm1, ?_⟩
    have := (minimaxSpec_range (b := b.set m1 AI) (t := HUMAN)
      (ValidCells_set hval (Or.inr (Or.inl rfl)))).1
    omega
  rcases pickBest_argmax _ (available_moves b) (-10) (-1)
      (available_moves_pairwise b) hexgt with ⟨m0, hm0, hpick, _, hle, htie⟩
  exact ⟨m0, hm0, by rw [hgo, hpick], hle, htie⟩

theorem claim5_witness : best_ai_move emptyBoard = 0 :=
  (claim5_tie_break_lowest_index emptyBoard emptyBoard_valid (by decide)
    (by decide)).2

/-- C6: Immediate-win priority.  When some empty cell completes an AI line,
best_ai_move returns the lowest-index such cell without scoring it or any
later move; in particular on the board X,X,_,O,O,_,_,_,_ the selector at
"hard" difficulty returns index 2. -/
theorem claim6_immediate_win_priority (b : Board) (m0 : Nat) (rest : List Nat)
    (hwm : winning_moves b AI = m0 :: rest) :
    (best_ai_move b = Int.ofNat m0 ∧ m0 ∈ winning_moves b AI ∧
      ∀ m ∈ winning_moves b AI, m0 ≤ m) ∧
    (best_ai_move demoBoard = 2 ∧
      ∀ (u : ℚ) (pick : Nat),
        choose_ai_move demoBoard "hard" u pick = some 2) := by
  have hdemo : best_ai_move demoBoard = 2 := by decide
  refine ⟨?_, hdemo, ?_⟩
  · have hfilter := winning_moves_filter b AI
    rw [hwm] at hfilter
    have hearly := best_ai_moveGo_early b (available_moves b)
      (fun m hm => (mem_available_moves.1 hm).2) m0 rest (-10) (-1) Memo.leaf
      hfilter.symm
    have hp : (winning_moves b AI).Pairwise (· < ·) := by
      rw [winning_moves_filter]
      exact (available_moves_pairwise b).filter _
    rw [hwm] at hp
    refine ⟨by rw [best_ai_move_go_form]; exact hearly, by rw [hwm]; simp, ?_⟩
    intro m hm
    rw [hwm] at hm
    rcases List.mem_cons.1 hm with rfl | hm2
    · exact le_refl m
    · exact le_of_lt ((List.pairwise_cons.1 hp).1 m hm2)
  · intro u pick
    rw [choose_ai_move_eq, if_pos rfl, hdemo]

theorem claim6_witness : best_ai_move demoBoard = Int.ofNat 2 :=
  (claim6_immediate_win_priority demoBoard 2 [] (by decide)).1.1

/-- C7: Difficulty modulation.  With at least one move open, the selector
returns the perfect move unconditionally at "hard" difficulty or when a
single move remains; otherwise it returns the perfect move exactly when the
uniform draw falls below the difficulty probability (0.7 medium, 0.35 easy)
and a different available move otherwise. -/
theorem claim7_difficulty_modulation (b : Board) (d : String) (u : ℚ)
    (pick : Nat) (hne : available_moves b ≠ [])
    (hd : d = "easy" ∨ d = "medium" ∨ d = "hard")
    (hu0 : 0 ≤ u) (hu1 : u < 1) :
    (d = "hard" → choose_ai_move b d u pick = some (best_ai_move b)) ∧
    ((available_moves b).length = 1 →
      choose_ai_move b d u pick = some (best_ai_move b)) ∧
    (d ≠ "hard" → (available_moves b).length ≠ 1 →
      (u < (if d = "medium" then (7 : ℚ)/10 else 35/100) →
        choose_ai_move b d u pick = some (best_ai_move b)) ∧
      (¬u < (if d = "medium" then (7 : ℚ)/10 else 35/100) →
        ∃ mm, choose_ai_move b d u pick = some mm ∧
          mm ∈ (available_moves b).map Int.ofNat ∧
          mm ≠ best_ai_move b)) := by
  refine ⟨?_, ?_, ?_⟩
  · intro hh
    rw [choose_ai_move_eq, if_pos hh]
  · intro hlen
    rw [choose_ai_move_eq]
    by_cases hh : d = "hard"
    · rw [if_pos hh]
    · rw [if_neg hh, if_pos hlen]
  · intro hh hlen
    constructor
    · intro hu
      rw [choose_ai_move_eq, if_neg hh, if_neg hlen, if_pos hu]
    · intro hu
      rw [choose_ai_move_eq, if_neg hh, if_neg hlen, if_neg hu]
      have hnn := other_moves_ne_nil (avail_len_ge_two hne hlen)
        (best_ai_move b)
      rcases random_choice_mem hnn pick with ⟨x, hx, hmem⟩
      rcases List.mem_filter.1 hmem with ⟨hmap, hdec⟩
      simp only [decide_eq_true_eq] at hdec
      exact ⟨x, hx, hmap, hdec⟩

theorem claim7_witness :
    ∃ mm, choose_ai_move demoBoard "easy" (1/2) 0 = some mm ∧
      mm ∈ (available_moves demoBoard).map Int.ofNat ∧
      mm ≠ best_ai_move demoBoard :=
  ((claim7_difficulty_modulation demoBoard "easy" (1/2) 0 (by decide)
      (Or.inl rfl) (by norm_num) (by norm_num)).2.2 (by decide) (by decide)).2
    (by rw [if_neg (by decide)]; norm_num)

/-- C8: Mistake move exclusion.  On the mistake branch (difficulty easy or
medium, more than one move open, and the draw not below the perfect-play
probability), the selected move is one of the available moves and never the
perfect move. -/
theorem claim8_mistake_exclusion (b : Board) (d : String) (u : ℚ) (pick : Nat)
    (hd : d = "easy" ∨ d = "medium")
    (h2 : 2 ≤ (available_moves b).length)
    (hu : ¬u < (if d = "medium" then (7 : ℚ)/10 else 35/100)) :
    ∃ mm, choose_ai_move b d u pick = some mm ∧
      mm ∈ (available_moves b).map Int.ofNat ∧ mm ≠ best_ai_move b := by
  have hh : d ≠ "hard" := by
    rcases hd with rfl | rfl <;> decide
  have hlen : (available_moves b).length ≠ 1 := by omega
  rw [choose_ai_move_eq, if_neg hh, if_neg hlen, if_neg hu]
  have hnn := other_moves_ne_nil h2 (best_ai_move b)
  rcases random_choice_mem hnn pick with ⟨x, hx, hmem⟩
  rcases List.mem_filter.1 hmem with ⟨hmap, hdec⟩
  simp only [decide_eq_true_eq] at hdec
  exact ⟨x, hx, hmap, hdec⟩

theorem claim8_witness :
    ∃ mm, choose_ai_move demoBoard "medium" (9/10) 3 = some mm ∧
      mm ∈ (available_moves demoBoard).map Int.ofNat ∧
      mm ≠ best_ai_move demoBoard :=
  claim8_mistake_exclusion demoBoard "medium" (9/10) 3 (Or.inr rfl)
    (by decide) (by rw [if_pos rfl]; norm_num)

/-- C9: Totality and score range.  On any board of marks with an empty cell,
a minimax call on a fresh memo returns a score in -1, 0, 1; the internal
sentinels -10 and 10 never escape. -/
theorem claim9_score_range (b : Board) (t : Char) (hval : ValidCells b)
    (ht : t = AI ∨ t = HUMAN) (hne : available_moves b ≠ []) :
    ((minimax b t Memo.leaf).1 = -1 ∨ (minimax b t Memo.leaf).1 = 0 ∨
      (minimax b t Memo.leaf).1 = 1) ∧
    (minimax b t Memo.leaf).1 ≠ -10 ∧ (minimax b t Memo.leaf).1 ≠ 10 := by
  have hs := (minimax_spec b t Memo.leaf hval ht MemoOK_leaf).1
  have hr := minimaxSpec_range (b := b) (t := t) hval
  rw [hs]
  omega

theorem claim9_witness :
    ((minimax demoBoard AI Memo.leaf).1 = -1 ∨
      (minimax demoBoard AI Memo.leaf).1 = 0 ∨
      (minimax demoBoard AI Memo.leaf).1 = 1) ∧
    (minimax demoBoard AI Memo.leaf).1 ≠ -10 ∧
    (minimax demoBoard AI Memo.leaf).1 ≠ 10 :=
  claim9_score_range demoBoard AI (by decide) (Or.inl rfl) (by decide)

/-- C10: Legal-move invariant.  On any 9-cell board of marks with an empty
cell, for every difficulty and every outcome of the random source, the
selector returns an index of an empty cell in range, so the game loop always
writes the AI mark onto an empty cell. -/
theorem claim10_legal_move_invariant (b : Board) (d : String) (u : ℚ)
    (pick : Nat) (hval : ValidCells b) (hlen : b.length = 9)
    (hne : available_moves b ≠ [])
    (hd : d = "easy" ∨ d = "medium" ∨ d = "hard") :
    ∃ m : Nat, choose_ai_move b d u pick = some (Int.ofNat m) ∧
      m ∈ available_moves b ∧ m < 9 ∧ b.getD m EMPTY = EMPTY := by
  have hbest : ∃ m : Nat, some (best_ai_move b) = some (Int.ofNat m) ∧
      m ∈ available_moves b ∧ m < 9 ∧ b.getD m EMPTY = EMPTY := by
    rcases best_ai_move_mem hval hne with ⟨m, hm, hbm⟩
    have hmm := mem_available_moves.1 hm
    exact ⟨m, by rw [hbm], hm, by omega, hmm.2⟩
  rw [choose_ai_move_eq]
  by_cases hh : d = "hard"
  · rw [if_pos hh]
    exact hbest
  · rw [if_neg hh]
    by_cases hlen1 : (available_moves b).length = 1
    · rw [if_pos hlen1]
      exact hbest
    · rw [if_neg hlen1]
      by_cases hu : u < (if d = "medium" then (7 : ℚ)/10 else 35/100)
      · rw [if_pos hu]
        exact hbest
      · rw [if_neg hu]
        have hnn := other_moves_ne_nil (avail_len_ge_two hne hlen1)
          (best_ai_move b)
        rcases random_choice_mem hnn pick with ⟨x, hx, hmem⟩
        rcases List.mem_filter.1 hmem with ⟨hmap, _⟩
        rcases List.mem_map.1 hmap with ⟨m, hm, hxm⟩
        have hmm := mem_available_moves.1 hm
        refine ⟨m, ?_, hm, by omega, hmm.2⟩
        rw [hx, ← hxm]

theorem claim10_witness :
    ∃ m : Nat, choose_ai_move emptyBoard "hard" 0 0 = some (Int.ofNat m) ∧
      m ∈ available_moves emptyBoard ∧ m < 9 ∧
      emptyBoard.getD m EMPTY = EMPTY :=
  claim10_legal_move_invariant emptyBoard "hard" 0 0 (by decide) (by decide)
    (by decide) (Or.inr (Or.inr rfl))

end TicTacToe
